import Mathlib

/-!
Shallow embedding of the numeric core of swanky (src/numbers.rs): mixed-radix and
base-q digit codecs, the base-q carry adder, CRT encode/decode, the extended-Euclid
modular inverse, factorization over a fixed prime table, and the precomputed
discrete-log / exponentiation tables with binary modular exponentiation.

Modelling conventions.
* Machine integers (`u16`, `u128`) are modelled as `ℕ`; where the source can
  overflow, the reduction is written explicitly (`% 65536`, `% 2 ^ 128`), matching
  Rust semantics with overflow checks disabled (the build in which arithmetic
  overflow is defined to wrap).  `BigInt` is modelled as `ℤ` (or `ℕ` where the
  source value is provably non-negative).
* Rust `/` and `%` on `BigInt` truncate toward zero; they are modelled with
  `Int.tdiv` / `Int.tmod`.
* Code that can panic (failed `assert!`, index out of bounds, division by zero,
  the explicit `panic!` arms) is modelled with `Option`, `none` being the panic.
* Loops whose counters strictly decrease are written with an explicit fuel
  argument large enough to be unreachable (noted at each definition), so that
  every definition is structurally recursive and kernel-computable.
-/

namespace Swanky

/-- Ceiling of log2: `clog2Aux fuel q` equals `⌈log₂ q⌉` whenever `q ≤ 2 ^ fuel`
(each step replaces `q` by `⌈q/2⌉`, so `fuel` bounds the iteration count). -/
def clog2Aux : ℕ → ℕ → ℕ
| 0, _ => 0
| fuel + 1, q => if q ≤ 1 then 0 else clog2Aux fuel ((q + 1) / 2) + 1

/-- Source: `digits_per_u128`.  The Rust code computes
`(128.0 / (modulus as f64).log2().ceil()).floor() as usize`.  For `2 ≤ modulus < 2 ^ 16`
the f64 computation is exact, because `⌈log₂ q⌉ ≤ 16` and `log₂ q` is bounded away
from the nearest integer by far more than the rounding error unless `q` is a power
of two (where `log2` is exact); hence the value is `128 / ⌈log₂ modulus⌉` in integer
arithmetic.  (At `modulus ≤ 1` the float path degenerates; no claim uses it.) -/
def digits_per_u128 (modulus : ℕ) : ℕ := 128 / clog2Aux 17 modulus

/-- Source: second loop of `base_q_add_eq`: propagate the (constant) carry `c` through
the remaining digits of `xs`, stopping at the first digit that stays below `q`.
Digit arithmetic is `u16`, hence the `% 65536`. -/
def carryLoop (q : ℕ) : List ℕ → ℕ → List ℕ
| [], _ => []
| x :: rest, c =>
  let s := (x + c) % 65536
  if q ≤ s then (s - q) :: carryLoop q rest c else s :: rest

/-- Source: first loop of `base_q_add_eq`: add overlapping digits with carry, then
hand the remaining digits of `xs` to `carryLoop`.  If `ys` is longer than `xs` the
source indexes `xs` out of bounds (a panic): `none`. -/
def addOverlap (q : ℕ) : List ℕ → List ℕ → ℕ → Option (List ℕ)
| xs, [], c => some (carryLoop q xs c)
| [], _ :: _, _ => none
| x :: xs, y :: ys, c =>
  let s := (x + y + c) % 65536
  if q ≤ s then (addOverlap q xs ys 1).map (fun t => (s - q) :: t)
  else (addOverlap q xs ys 0).map (fun t => s :: t)

/-- Source: `base_q_add_eq` (in-place digit-wise addition, modelled as returning the
updated `xs`). -/
def base_q_add_eq (xs ys : List ℕ) (q : ℕ) : Option (List ℕ) := addOverlap q xs ys 0

/-- Source: `base_q_add`: copy the longer operand and delegate to `base_q_add_eq`. -/
def base_q_add (xs ys : List ℕ) (q : ℕ) : Option (List ℕ) :=
if xs.length < ys.length then base_q_add_eq ys xs q else base_q_add_eq xs ys q

/-- Source: `as_mixed_radix`: emit `x mod m` per position while `x ≥ m`, else emit the
remaining `x` and stop early.  A zero modulus makes the source compute `x % 0`
(a panic): `none`. -/
def as_mixed_radix : ℕ → List ℕ → Option (List ℕ)
| _, [] => some []
| x, m :: ms =>
  if m ≤ x then
    if m = 0 then none
    else (as_mixed_radix ((x - x % m) / m) ms).map (fun ds => (x % m) :: ds)
  else some [x]

/-- Source: `padded_mixed_radix`: pad the natural decomposition with zeros up to the
modulus-sequence length. -/
def padded_mixed_radix (x : ℕ) (ms : List ℕ) : Option (List ℕ) :=
(as_mixed_radix x ms).map (fun ds => ds ++ List.replicate (ms.length - ds.length) 0)

/-- Source: `as_base_q`: assert `x < q ^ digits_per_u128 q` (a panic when it fails:
`none`), then decompose against the uniform modulus sequence. -/
def as_base_q (x q : ℕ) : Option (List ℕ) :=
if x < q ^ digits_per_u128 q then as_mixed_radix x (List.replicate (digits_per_u128 q) q)
else none

/-- Source: `padded_base_q`. -/
def padded_base_q (x q n : ℕ) : Option (List ℕ) :=
padded_mixed_radix x (List.replicate n q)

/-- Source: `from_base_q` loop over `ds.iter().rev()`: most-significant digit first,
`x ← x*q + d`.  The multiplication is `overflowing_mul` guarded by an `assert!`
(a detected-overflow panic: `none`); the following addition is an unchecked `u128`
addition, hence the `% 2 ^ 128`. -/
def from_base_q_loop (q : ℕ) : List ℕ → ℕ → Option ℕ
| [], x => some x
| d :: ds, x =>
  if 2 ^ 128 ≤ x * q then none
  else from_base_q_loop q ds ((x * q + d) % 2 ^ 128)

/-- Source: `from_base_q`. -/
def from_base_q (ds : List ℕ) (q : ℕ) : Option ℕ := from_base_q_loop q ds.reverse 0

/-- The exact Horner value of a little-endian digit vector in the uniform base `q`:
`ds[0] + ds[1]*q + ds[2]*q^2 + ...`.  Specification-side function used to state what
a digit vector denotes. -/
def valueQ (q : ℕ) : List ℕ → ℕ
| [] => 0
| d :: ds => d + q * valueQ q ds

/-- Little-endian minimal byte string of a natural number, at least one byte
(`num::BigInt::to_bytes_le` on a non-negative value).  `fuel ≥ n` bounds the
iteration count since `n` shrinks by a factor 256 each step. -/
def bytesAux : ℕ → ℕ → List ℕ
| 0, _ => []
| fuel + 1, n => if n = 0 then [] else n % 256 :: bytesAux fuel (n / 256)

/-- Little-endian bytes of `n`, with `[0]` for `0`. -/
def bytesLE (n : ℕ) : List ℕ := if n = 0 then [0] else bytesAux n n

/-- Source: `u16_from_bigint`: reads bytes 0 and 1 of the little-endian byte string.
If the value fits in one byte the source indexes `bs[1]` out of bounds (a panic):
`none`.  The source then computes `bs[0] + ((bs[1] as u16) << 16)`; a 16-bit shift of
a `u16` is an overflowing shift, which with overflow checks disabled masks the shift
amount to `0`, so the computed value is `bs[0] + bs[1]` modulo 2^16. -/
def u16_from_bigint (n : ℕ) : Option ℕ :=
let bs := bytesLE n
if bs.length ≤ 1 then none
else some ((bs.getD 0 0 + bs.getD 1 0) % 65536)

/-- Source: `as_mixed_radix_bigint`: the same traversal as `as_mixed_radix`, with each
emitted digit converted through `u16_from_bigint`. -/
def as_mixed_radix_bigint : ℕ → List ℕ → Option (List ℕ)
| _, [] => some []
| x, m :: ms =>
  if m ≤ x then
    if m = 0 then none
    else
      match u16_from_bigint (x % m) with
      | none => none
      | some d => (as_mixed_radix_bigint ((x - x % m) / m) ms).map (fun ds => d :: ds)
  else (u16_from_bigint x).map (fun d => [d])

/-- Source: `PRIMES`, the fixed ordered prime table. -/
def PRIMES : List ℕ :=
[2, 3, 5, 7, 11, 13, 17, 19, 23, 29, 31, 37, 41, 43, 47, 53, 59, 61, 67, 71,
 73, 79, 83, 89, 97, 101, 103, 107, 109]

/-- Source: `PRIMES_SKIP_2`. -/
def PRIMES_SKIP_2 : List ℕ :=
[3, 5, 7, 11, 13, 17, 19, 23, 29, 31, 37, 41, 43, 47, 53, 59, 61, 67, 71,
 73, 79, 83, 89, 97, 101, 103, 107, 109, 113]

/-- Source: `PRIMITIVE_ROOTS`, paired index-wise with `PRIMES_SKIP_2`. -/
def PRIMITIVE_ROOTS : List ℕ :=
[2, 2, 3, 2, 2, 3, 2, 5, 2, 3, 2, 6, 3, 5, 2, 2, 2, 2, 7, 5, 3, 2, 3, 5, 2,
 5, 2, 6, 3]

/-- Source: the loop of `factor`: try each table prime once, dividing `x` by it when
it divides, and collect it. -/
def factorLoop : List ℕ → ℕ → List ℕ × ℕ
| [], x => ([], x)
| p :: ps, x =>
  if x % p = 0 then
    let pr := factorLoop ps (x / p)
    (p :: pr.1, pr.2)
  else factorLoop ps x

/-- Source: `factor`: a residual other than 1 after the table scan panics: `none`. -/
def factor (x : ℕ) : Option (List ℕ) :=
let pr := factorLoop PRIMES x
if pr.2 = 1 then some pr.1 else none

/-- Source: `product`: fold of multiplication over the prime list.  The source
accumulates in `u128`; for the products the claims quantify over, the value also
stays exact below `2 ^ 128` whenever it matters (every claim that uses `product`
also bounds the encoded value by `2 ^ 128`). -/
def product (xs : List ℕ) : ℕ := xs.foldl (fun acc x => acc * x) 1

/-- Source: `crt`: one residue `x mod p` per prime. -/
def crt (ps : List ℕ) (x : ℕ) : List ℕ := ps.map (fun p => x % p)

/-- Source: the loop of `inv_ref` (extended Euclid).  State `(a, b, x0, x1)`, one
unfolding per iteration of `while a > 1`.  Each iteration maps `b` to `a tmod b`,
whose absolute value strictly decreases, so `|b| + 1` units of fuel reach the exit;
fuel exhaustion (`none`) is unreachable from `inv_ref`.  When `b = 0` inside the
loop the source divides by zero (a panic): `none`.  On exit a negative coefficient
is normalized by adding the original modulus `B0`. -/
def invLoop (B0 : ℤ) : ℕ → ℤ → ℤ → ℤ → ℤ → Option ℤ
| 0, _, _, _, _ => none
| fuel + 1, a, b, x0, x1 =>
  if 1 < a then
    if b = 0 then none
    else invLoop B0 fuel b (Int.tmod a b) (x1 - Int.tdiv a b * x0) x0
  else some (if x1 < 0 then x1 + B0 else x1)

/-- Source: `inv_ref` (with `T = BigInt`, whose `/` and `%` truncate toward zero). -/
def inv_ref (A B : ℤ) : Option ℤ :=
if B = 1 then some 1 else invLoop B (B.natAbs + 1) A B 0 1

/-- Source: `inv`, which just calls `inv_ref`. -/
def inv (a m : ℤ) : Option ℤ := inv_ref a m

/-- Source: the loop of `crt_inv`: for each `(p, a)`, with `q = M / p` (truncated
`BigInt` division), accumulate `a * inv_ref(q, p) * q` and reduce modulo `M`
(truncated `BigInt` remainder). -/
def crtInvLoop (M : ℤ) : List (ℕ × ℕ) → ℤ → Option ℤ
| [], ret => some ret
| (p, a) :: rest, ret =>
  let q := Int.tdiv M p
  match inv_ref q p with
  | none => none
  | some i => crtInvLoop M rest (Int.tmod (ret + a * i * q) M)

/-- Source: `crt_inv`: `M` is the `BigInt` fold of the primes, the loop runs over
`ps.zip(xs)`, and the final `ret.to_u128().unwrap()` panics (`none`) unless
`0 ≤ ret < 2 ^ 128`. -/
def crt_inv (ps xs : List ℕ) : Option ℕ :=
let M : ℤ := ps.foldl (fun (acc : ℤ) (p : ℕ) => (p : ℤ) * acc) 1
match crtInvLoop M (ps.zip xs) 0 with
| none => none
| some ret => if 0 ≤ ret ∧ ret < 2 ^ 128 then some ret.toNat else none

/-- Source: the loop of `powm` (binary modular exponentiation, ascending direction):
square the base and halve an even exponent, multiply the accumulator and decrement
an odd one.  Every step strictly decreases the exponent `n`, so `n + 1` units of
fuel reach the exit; fuel exhaustion is unreachable from `powm` (value 0 there is
arbitrary).  On the domain the claims use (`modulus ≤ 113`, base below the modulus
after one squaring) the `u16` arithmetic of the source never wraps, so `ℕ`
arithmetic is exact. -/
def powmLoop (modulus : ℕ) : ℕ → ℕ → ℕ → ℕ → ℕ
| 0, _, _, z => z
| fuel + 1, x, n, z =>
  if n = 0 then z
  else if n % 2 = 0 then powmLoop modulus fuel ((x ^ 2) % modulus) (n / 2) z
  else powmLoop modulus fuel x (n - 1) ((x * z) % modulus)

/-- Source: `powm`. -/
def powm (inp pw modulus : ℕ) : ℕ := powmLoop modulus (pw + 1) inp pw 1

/-- Table of discrete logarithms per supported prime modulus; index 0 is a meaningless
sentinel. An unknown modulus panics in the source, modelled as none. -/
def dlog_truth_table (modulus : ℕ) : Option (List ℕ) :=
match modulus with
| 2 => some [0, 0]
| 3 => some [0, 0, 1]
| 5 => some [0, 0, 1, 3, 2]
| 7 => some [0, 0, 2, 1, 4, 5, 3]
| 11 => some [0, 0, 1, 8, 2, 4, 9, 7, 3, 6, 5]
| 13 => some [0, 0, 1, 4, 2, 9, 5, 11, 3, 8, 10, 7, 6]
| 17 => some [0, 0, 14, 1, 12, 5, 15, 11, 10, 2, 3, 7, 13, 4, 9, 6, 8]
| 19 => some [0, 0, 1, 13, 2, 16, 14, 6, 3, 8, 17, 12, 15, 5, 7, 11, 4, 10, 9]
| 23 => some [0, 0, 2, 16, 4, 1, 18, 19, 6, 10, 3, 9, 20, 14, 21, 17, 8, 7, 12, 15, 5, 13, 11]
| 29 => some [0, 0, 1, 5, 2, 22, 6, 12, 3, 10, 23, 25, 7, 18, 13, 27, 4, 21, 11, 9, 24, 17, 26,
    20, 8, 16, 19, 15, 14]
| 31 => some [0, 0, 24, 1, 18, 20, 25, 28, 12, 2, 14, 23, 19, 11, 22, 21, 6, 7, 26, 4, 8, 29,
    17, 27, 13, 10, 5, 3, 16, 9, 15]
| 37 => some [0, 0, 1, 26, 2, 23, 27, 32, 3, 16, 24, 30, 28, 11, 33, 13, 4, 7, 17, 35, 25, 22,
    31, 15, 29, 10, 12, 6, 34, 21, 14, 9, 5, 20, 8, 19, 18]
| 41 => some [0, 0, 26, 15, 12, 22, 1, 39, 38, 30, 8, 3, 27, 31, 25, 37, 24, 33, 16, 9, 34, 14,
    29, 36, 13, 4, 17, 5, 11, 7, 23, 28, 10, 18, 19, 21, 2, 32, 35, 6, 20]
| 43 => some [0, 0, 27, 1, 12, 25, 28, 35, 39, 2, 10, 30, 13, 32, 20, 26, 24, 38, 29, 19, 37,
    36, 15, 16, 40, 8, 17, 3, 5, 41, 11, 34, 9, 31, 23, 18, 14, 7, 4, 33, 22, 6, 21]
| 47 => some [0, 0, 18, 20, 36, 1, 38, 32, 8, 40, 19, 7, 10, 11, 4, 21, 26, 16, 12, 45, 37, 6,
    25, 5, 28, 2, 29, 14, 22, 35, 39, 3, 44, 27, 34, 33, 30, 42, 17, 31, 9, 15, 24, 13, 43, 41,
    23]
| 53 => some [0, 0, 1, 17, 2, 47, 18, 14, 3, 34, 48, 6, 19, 24, 15, 12, 4, 10, 35, 37, 49, 31,
    7, 39, 20, 42, 25, 51, 16, 46, 13, 33, 5, 23, 11, 9, 36, 30, 38, 41, 50, 45, 32, 22, 8, 29,
    40, 44, 21, 28, 43, 27, 26]
| 59 => some [0, 0, 1, 50, 2, 6, 51, 18, 3, 42, 7, 25, 52, 45, 19, 56, 4, 40, 43, 38, 8, 10,
    26, 15, 53, 12, 46, 34, 20, 28, 57, 49, 5, 17, 41, 24, 44, 55, 39, 37, 9, 14, 11, 33, 27,
    48, 16, 23, 54, 36, 13, 32, 47, 22, 35, 31, 21, 30, 29]
| 61 => some [0, 0, 1, 6, 2, 22, 7, 49, 3, 12, 23, 15, 8, 40, 50, 28, 4, 47, 13, 26, 24, 55,
    16, 57, 9, 44, 41, 18, 51, 35, 29, 59, 5, 21, 48, 11, 14, 39, 27, 46, 25, 54, 56, 43, 17,
    34, 58, 20, 10, 38, 45, 53, 42, 33, 19, 37, 52, 32, 36, 31, 30]
| 67 => some [0, 0, 1, 39, 2, 15, 40, 23, 3, 12, 16, 59, 41, 19, 24, 54, 4, 64, 13, 10, 17, 62,
    60, 28, 42, 30, 20, 51, 25, 44, 55, 47, 5, 32, 65, 38, 14, 22, 11, 58, 18, 53, 63, 9, 61,
    27, 29, 50, 43, 46, 31, 37, 21, 57, 52, 8, 26, 49, 45, 36, 56, 7, 48, 35, 6, 34, 33]
| 71 => some [0, 0, 6, 26, 12, 28, 32, 1, 18, 52, 34, 31, 38, 39, 7, 54, 24, 49, 58, 16, 40,
    27, 37, 15, 44, 56, 45, 8, 13, 68, 60, 11, 30, 57, 55, 29, 64, 20, 22, 65, 46, 25, 33, 48,
    43, 10, 21, 9, 50, 2, 62, 5, 51, 23, 14, 59, 19, 42, 4, 3, 66, 69, 17, 53, 36, 67, 63, 47,
    61, 41, 35]
| 73 => some [0, 0, 8, 6, 16, 1, 14, 33, 24, 12, 9, 55, 22, 59, 41, 7, 32, 21, 20, 62, 17, 39,
    63, 46, 30, 2, 67, 18, 49, 35, 15, 11, 40, 61, 29, 34, 28, 64, 70, 65, 25, 4, 47, 51, 71,
    13, 54, 31, 38, 66, 10, 27, 3, 53, 26, 56, 57, 68, 43, 5, 23, 58, 19, 45, 48, 60, 69, 50,
    37, 52, 42, 44, 36]
| 79 => some [0, 0, 4, 1, 8, 62, 5, 53, 12, 2, 66, 68, 9, 34, 57, 63, 16, 21, 6, 32, 70, 54,
    72, 26, 13, 46, 38, 3, 61, 11, 67, 56, 20, 69, 25, 37, 10, 19, 36, 35, 74, 75, 58, 49, 76,
    64, 30, 59, 17, 28, 50, 22, 42, 77, 7, 52, 65, 33, 15, 31, 71, 45, 60, 55, 24, 18, 73, 48,
    29, 27, 41, 51, 14, 44, 23, 47, 40, 43, 39]
| 83 => some [0, 0, 1, 72, 2, 27, 73, 8, 3, 62, 28, 24, 74, 77, 9, 17, 4, 56, 63, 47, 29, 80,
    25, 60, 75, 54, 78, 52, 10, 12, 18, 38, 5, 14, 57, 35, 64, 20, 48, 67, 30, 40, 81, 71, 26,
    7, 61, 23, 76, 16, 55, 46, 79, 59, 53, 51, 11, 37, 13, 34, 19, 66, 39, 70, 6, 22, 15, 45,
    58, 50, 36, 33, 65, 69, 21, 44, 49, 32, 68, 43, 31, 42, 41]
| 89 => some [0, 0, 16, 1, 32, 70, 17, 81, 48, 2, 86, 84, 33, 23, 9, 71, 64, 6, 18, 35, 14, 82,
    12, 57, 49, 52, 39, 3, 25, 59, 87, 31, 80, 85, 22, 63, 34, 11, 51, 24, 30, 21, 10, 29, 28,
    72, 73, 54, 65, 74, 68, 7, 55, 78, 19, 66, 41, 36, 75, 43, 15, 69, 47, 83, 8, 5, 13, 56,
    38, 58, 79, 62, 50, 20, 27, 53, 67, 77, 40, 42, 46, 4, 37, 61, 26, 76, 45, 60, 44]
| 97 => some [0, 0, 34, 70, 68, 1, 8, 31, 6, 44, 35, 86, 42, 25, 65, 71, 40, 89, 78, 81, 69, 5,
    24, 77, 76, 2, 59, 18, 3, 13, 9, 46, 74, 60, 27, 32, 16, 91, 19, 95, 7, 85, 39, 4, 58, 45,
    15, 84, 14, 62, 36, 63, 93, 10, 52, 87, 37, 55, 47, 67, 43, 64, 80, 75, 12, 26, 94, 57, 61,
    51, 66, 11, 50, 28, 29, 72, 53, 21, 33, 30, 41, 88, 23, 17, 73, 90, 38, 83, 92, 54, 79, 56,
    49, 20, 22, 82, 48]
| 101 => some [0, 0, 1, 69, 2, 24, 70, 9, 3, 38, 25, 13, 71, 66, 10, 93, 4, 30, 39, 96, 26, 78,
    14, 86, 72, 48, 67, 7, 11, 91, 94, 84, 5, 82, 31, 33, 40, 56, 97, 35, 27, 45, 79, 42, 15,
    62, 87, 58, 73, 18, 49, 99, 68, 23, 8, 37, 12, 65, 92, 29, 95, 77, 85, 47, 6, 90, 83, 81,
    32, 55, 34, 44, 41, 61, 57, 17, 98, 22, 36, 64, 28, 76, 46, 89, 80, 54, 43, 60, 16, 21, 63,
    75, 88, 53, 59, 20, 74, 52, 19, 51, 50]
| 103 => some [0, 0, 44, 39, 88, 1, 83, 4, 30, 78, 45, 61, 25, 72, 48, 40, 74, 70, 20, 80, 89,
    43, 3, 24, 69, 2, 14, 15, 92, 86, 84, 57, 16, 100, 12, 5, 64, 93, 22, 9, 31, 50, 87, 77,
    47, 79, 68, 85, 11, 8, 46, 7, 58, 97, 59, 62, 34, 17, 28, 98, 26, 36, 101, 82, 60, 73, 42,
    13, 56, 63, 49, 67, 6, 33, 35, 41, 66, 65, 53, 18, 75, 54, 94, 38, 29, 71, 19, 23, 91, 99,
    21, 76, 10, 96, 27, 81, 55, 32, 52, 37, 90, 95, 51]
| 107 => some [0, 0, 1, 70, 2, 47, 71, 43, 3, 34, 48, 22, 72, 14, 44, 11, 4, 29, 35, 78, 49, 7,
    23, 62, 73, 94, 15, 104, 45, 32, 12, 27, 5, 92, 30, 90, 36, 38, 79, 84, 50, 40, 8, 59, 24,
    81, 63, 66, 74, 86, 95, 99, 16, 52, 105, 69, 46, 42, 33, 21, 13, 10, 28, 77, 6, 61, 93,
    103, 31, 26, 91, 89, 37, 83, 39, 58, 80, 65, 85, 98, 51, 68, 41, 20, 9, 76, 60, 102, 25,
    88, 82, 57, 64, 97, 67, 19, 75, 101, 87, 56, 96, 18, 100, 55, 17, 54, 53]
| 109 => some [0, 0, 57, 52, 6, 76, 1, 40, 63, 104, 25, 83, 58, 67, 97, 20, 12, 93, 53, 75, 82,
    92, 32, 33, 7, 44, 16, 48, 46, 34, 77, 14, 69, 27, 42, 8, 2, 5, 24, 11, 31, 45, 41, 30, 89,
    72, 90, 17, 64, 80, 101, 37, 73, 49, 105, 51, 103, 19, 91, 47, 26, 10, 71, 36, 18, 35, 84,
    95, 99, 85, 65, 78, 59, 56, 62, 96, 81, 15, 68, 23, 88, 100, 102, 70, 98, 61, 87, 86, 38,
    28, 21, 107, 39, 66, 74, 43, 13, 4, 29, 79, 50, 9, 94, 55, 22, 60, 106, 3, 54]
| 113 => some [0, 0, 12, 1, 24, 83, 13, 8, 36, 2, 95, 74, 25, 22, 20, 84, 48, 5, 14, 99, 107,
    9, 86, 41, 37, 54, 34, 3, 32, 89, 96, 50, 60, 75, 17, 91, 26, 67, 111, 23, 7, 94, 21, 47,
    98, 85, 53, 31, 49, 16, 66, 6, 46, 52, 15, 45, 44, 100, 101, 71, 108, 102, 62, 10, 72, 105,
    87, 109, 29, 42, 103, 77, 38, 63, 79, 55, 11, 82, 35, 73, 19, 4, 106, 40, 33, 88, 59, 90,
    110, 93, 97, 30, 65, 51, 43, 70, 61, 104, 28, 76, 78, 81, 18, 39, 58, 92, 64, 69, 27, 80,
    57, 68, 56]
| _ => none


/-- Table of powers of the primitive root per supported prime modulus. An unknown modulus
panics in the source, modelled as none. -/
def exp_truth_table (modulus : ℕ) : Option (List ℕ) :=
match modulus with
| 2 => some [1, 1]
| 3 => some [1, 2, 1]
| 5 => some [1, 2, 4, 3, 1]
| 7 => some [1, 3, 2, 6, 4, 5, 1]
| 11 => some [1, 2, 4, 8, 5, 10, 9, 7, 3, 6, 1]
| 13 => some [1, 2, 4, 8, 3, 6, 12, 11, 9, 5, 10, 7, 1]
| 17 => some [1, 3, 9, 10, 13, 5, 15, 11, 16, 14, 8, 7, 4, 12, 2, 6, 1]
| 19 => some [1, 2, 4, 8, 16, 13, 7, 14, 9, 18, 17, 15, 11, 3, 6, 12, 5, 10, 1]
| 23 => some [1, 5, 2, 10, 4, 20, 8, 17, 16, 11, 9, 22, 18, 21, 13, 19, 3, 15, 6, 7, 12, 14, 1]
| 29 => some [1, 2, 4, 8, 16, 3, 6, 12, 24, 19, 9, 18, 7, 14, 28, 27, 25, 21, 13, 26, 23, 17,
    5, 10, 20, 11, 22, 15, 1]
| 31 => some [1, 3, 9, 27, 19, 26, 16, 17, 20, 29, 25, 13, 8, 24, 10, 30, 28, 22, 4, 12, 5, 15,
    14, 11, 2, 6, 18, 23, 7, 21, 1]
| 37 => some [1, 2, 4, 8, 16, 32, 27, 17, 34, 31, 25, 13, 26, 15, 30, 23, 9, 18, 36, 35, 33,
    29, 21, 5, 10, 20, 3, 6, 12, 24, 11, 22, 7, 14, 28, 19, 1]
| 41 => some [1, 6, 36, 11, 25, 27, 39, 29, 10, 19, 32, 28, 4, 24, 21, 3, 18, 26, 33, 34, 40,
    35, 5, 30, 16, 14, 2, 12, 31, 22, 9, 13, 37, 17, 20, 38, 23, 15, 8, 7, 1]
| 43 => some [1, 3, 9, 27, 38, 28, 41, 37, 25, 32, 10, 30, 4, 12, 36, 22, 23, 26, 35, 19, 14,
    42, 40, 34, 16, 5, 15, 2, 6, 18, 11, 33, 13, 39, 31, 7, 21, 20, 17, 8, 24, 29, 1]
| 47 => some [1, 5, 25, 31, 14, 23, 21, 11, 8, 40, 12, 13, 18, 43, 27, 41, 17, 38, 2, 10, 3,
    15, 28, 46, 42, 22, 16, 33, 24, 26, 36, 39, 7, 35, 34, 29, 4, 20, 6, 30, 9, 45, 37, 44, 32,
    19, 1]
| 53 => some [1, 2, 4, 8, 16, 32, 11, 22, 44, 35, 17, 34, 15, 30, 7, 14, 28, 3, 6, 12, 24, 48,
    43, 33, 13, 26, 52, 51, 49, 45, 37, 21, 42, 31, 9, 18, 36, 19, 38, 23, 46, 39, 25, 50, 47,
    41, 29, 5, 10, 20, 40, 27, 1]
| 59 => some [1, 2, 4, 8, 16, 32, 5, 10, 20, 40, 21, 42, 25, 50, 41, 23, 46, 33, 7, 14, 28, 56,
    53, 47, 35, 11, 22, 44, 29, 58, 57, 55, 51, 43, 27, 54, 49, 39, 19, 38, 17, 34, 9, 18, 36,
    13, 26, 52, 45, 31, 3, 6, 12, 24, 48, 37, 15, 30, 1]
| 61 => some [1, 2, 4, 8, 16, 32, 3, 6, 12, 24, 48, 35, 9, 18, 36, 11, 22, 44, 27, 54, 47, 33,
    5, 10, 20, 40, 19, 38, 15, 30, 60, 59, 57, 53, 45, 29, 58, 55, 49, 37, 13, 26, 52, 43, 25,
    50, 39, 17, 34, 7, 14, 28, 56, 51, 41, 21, 42, 23, 46, 31, 1]
| 67 => some [1, 2, 4, 8, 16, 32, 64, 61, 55, 43, 19, 38, 9, 18, 36, 5, 10, 20, 40, 13, 26, 52,
    37, 7, 14, 28, 56, 45, 23, 46, 25, 50, 33, 66, 65, 63, 59, 51, 35, 3, 6, 12, 24, 48, 29,
    58, 49, 31, 62, 57, 47, 27, 54, 41, 15, 30, 60, 53, 39, 11, 22, 44, 21, 42, 17, 34, 1]
| 71 => some [1, 7, 49, 59, 58, 51, 2, 14, 27, 47, 45, 31, 4, 28, 54, 23, 19, 62, 8, 56, 37,
    46, 38, 53, 16, 41, 3, 21, 5, 35, 32, 11, 6, 42, 10, 70, 64, 22, 12, 13, 20, 69, 57, 44,
    24, 26, 40, 67, 43, 17, 48, 52, 9, 63, 15, 34, 25, 33, 18, 55, 30, 68, 50, 66, 36, 39, 60,
    65, 29, 61, 1]
| 73 => some [1, 5, 25, 52, 41, 59, 3, 15, 2, 10, 50, 31, 9, 45, 6, 30, 4, 20, 27, 62, 18, 17,
    12, 60, 8, 40, 54, 51, 36, 34, 24, 47, 16, 7, 35, 29, 72, 68, 48, 21, 32, 14, 70, 58, 71,
    63, 23, 42, 64, 28, 67, 43, 69, 53, 46, 11, 55, 56, 61, 13, 65, 33, 19, 22, 37, 39, 49, 26,
    57, 66, 38, 44, 1]
| 79 => some [1, 3, 9, 27, 2, 6, 18, 54, 4, 12, 36, 29, 8, 24, 72, 58, 16, 48, 65, 37, 32, 17,
    51, 74, 64, 34, 23, 69, 49, 68, 46, 59, 19, 57, 13, 39, 38, 35, 26, 78, 76, 70, 52, 77, 73,
    61, 25, 75, 67, 43, 50, 71, 55, 7, 21, 63, 31, 14, 42, 47, 62, 28, 5, 15, 45, 56, 10, 30,
    11, 33, 20, 60, 22, 66, 40, 41, 44, 53, 1]
| 83 => some [1, 2, 4, 8, 16, 32, 64, 45, 7, 14, 28, 56, 29, 58, 33, 66, 49, 15, 30, 60, 37,
    74, 65, 47, 11, 22, 44, 5, 10, 20, 40, 80, 77, 71, 59, 35, 70, 57, 31, 62, 41, 82, 81, 79,
    75, 67, 51, 19, 38, 76, 69, 55, 27, 54, 25, 50, 17, 34, 68, 53, 23, 46, 9, 18, 36, 72, 61,
    39, 78, 73, 63, 43, 3, 6, 12, 24, 48, 13, 26, 52, 21, 42, 1]
| 89 => some [1, 3, 9, 27, 81, 65, 17, 51, 64, 14, 42, 37, 22, 66, 20, 60, 2, 6, 18, 54, 73,
    41, 34, 13, 39, 28, 84, 74, 44, 43, 40, 31, 4, 12, 36, 19, 57, 82, 68, 26, 78, 56, 79, 59,
    88, 86, 80, 62, 8, 24, 72, 38, 25, 75, 47, 52, 67, 23, 69, 29, 87, 83, 71, 35, 16, 48, 55,
    76, 50, 61, 5, 15, 45, 46, 49, 58, 85, 77, 53, 70, 32, 7, 21, 63, 11, 33, 10, 30, 1]
| 97 => some [1, 5, 25, 28, 43, 21, 8, 40, 6, 30, 53, 71, 64, 29, 48, 46, 36, 83, 27, 38, 93,
    77, 94, 82, 22, 13, 65, 34, 73, 74, 79, 7, 35, 78, 2, 10, 50, 56, 86, 42, 16, 80, 12, 60,
    9, 45, 31, 58, 96, 92, 72, 69, 54, 76, 89, 57, 91, 67, 44, 26, 33, 68, 49, 51, 61, 14, 70,
    59, 4, 20, 3, 15, 75, 84, 32, 63, 24, 23, 18, 90, 62, 19, 95, 87, 47, 41, 11, 55, 81, 17,
    85, 37, 88, 52, 66, 39, 1]
| 101 => some [1, 2, 4, 8, 16, 32, 64, 27, 54, 7, 14, 28, 56, 11, 22, 44, 88, 75, 49, 98, 95,
    89, 77, 53, 5, 10, 20, 40, 80, 59, 17, 34, 68, 35, 70, 39, 78, 55, 9, 18, 36, 72, 43, 86,
    71, 41, 82, 63, 25, 50, 100, 99, 97, 93, 85, 69, 37, 74, 47, 94, 87, 73, 45, 90, 79, 57,
    13, 26, 52, 3, 6, 12, 24, 48, 96, 91, 81, 61, 21, 42, 84, 67, 33, 66, 31, 62, 23, 46, 92,
    83, 65, 29, 58, 15, 30, 60, 19, 38, 76, 51, 1]
| 103 => some [1, 5, 25, 22, 7, 35, 72, 51, 49, 39, 92, 48, 34, 67, 26, 27, 32, 57, 79, 86, 18,
    90, 38, 87, 23, 12, 60, 94, 58, 84, 8, 40, 97, 73, 56, 74, 61, 99, 83, 3, 15, 75, 66, 21,
    2, 10, 50, 44, 14, 70, 41, 102, 98, 78, 81, 96, 68, 31, 52, 54, 64, 11, 55, 69, 36, 77, 76,
    71, 46, 24, 17, 85, 13, 65, 16, 80, 91, 43, 9, 45, 19, 95, 63, 6, 30, 47, 29, 42, 4, 20,
    100, 88, 28, 37, 82, 101, 93, 53, 59, 89, 33, 62, 1]
| 107 => some [1, 2, 4, 8, 16, 32, 64, 21, 42, 84, 61, 15, 30, 60, 13, 26, 52, 104, 101, 95,
    83, 59, 11, 22, 44, 88, 69, 31, 62, 17, 34, 68, 29, 58, 9, 18, 36, 72, 37, 74, 41, 82, 57,
    7, 14, 28, 56, 5, 10, 20, 40, 80, 53, 106, 105, 103, 99, 91, 75, 43, 86, 65, 23, 46, 92,
    77, 47, 94, 81, 55, 3, 6, 12, 24, 48, 96, 85, 63, 19, 38, 76, 45, 90, 73, 39, 78, 49, 98,
    89, 71, 35, 70, 33, 66, 25, 50, 100, 93, 79, 51, 102, 97, 87, 67, 27, 54, 1]
| 109 => some [1, 6, 36, 107, 97, 37, 4, 24, 35, 101, 61, 39, 16, 96, 31, 77, 26, 47, 64, 57,
    15, 90, 104, 79, 38, 10, 60, 33, 89, 98, 43, 40, 22, 23, 29, 65, 63, 51, 88, 92, 7, 42, 34,
    95, 25, 41, 28, 59, 27, 53, 100, 55, 3, 18, 108, 103, 73, 2, 12, 72, 105, 85, 74, 8, 48,
    70, 93, 13, 78, 32, 83, 62, 45, 52, 94, 19, 5, 30, 71, 99, 49, 76, 20, 11, 66, 69, 87, 86,
    80, 44, 46, 58, 21, 17, 102, 67, 75, 14, 84, 68, 81, 50, 82, 56, 9, 54, 106, 91, 1]
| 113 => some [1, 3, 9, 27, 81, 17, 51, 40, 7, 21, 63, 76, 2, 6, 18, 54, 49, 34, 102, 80, 14,
    42, 13, 39, 4, 12, 36, 108, 98, 68, 91, 47, 28, 84, 26, 78, 8, 24, 72, 103, 83, 23, 69, 94,
    56, 55, 52, 43, 16, 48, 31, 93, 53, 46, 25, 75, 112, 110, 104, 86, 32, 96, 62, 73, 106, 92,
    50, 37, 111, 107, 95, 59, 64, 79, 11, 33, 99, 71, 100, 74, 109, 101, 77, 5, 15, 45, 22, 66,
    85, 29, 87, 35, 105, 89, 41, 10, 30, 90, 44, 19, 57, 58, 61, 70, 97, 65, 82, 20, 60, 67,
    88, 38, 1]
| _ => none

/-!
## Claim theorems
-/

set_option maxHeartbeats 4000000 in
set_option maxRecDepth 10000 in
/-- C2: for every prime `p` of the discrete-log catalogue `PRIMES_SKIP_2` with paired
primitive root `g` from `PRIMITIVE_ROOTS`, and every `x` with `0 < x < p`, the tables
exist and satisfy `powm g (dlog p)[x] p = x` and `(exp p)[(dlog p)[x]] = x`: the dlog
and exponentiation tables are mutually inverse on `[1, p)` and consistent with
`powm`. -/
theorem dlog_exp_tables_consistent :
    ∀ pr ∈ PRIMES_SKIP_2.zip PRIMITIVE_ROOTS, ∀ x, x < pr.1 → 0 < x →
      (dlog_truth_table pr.1).map (fun t => powm pr.2 (t.getD x 0) pr.1) = some x ∧
      (dlog_truth_table pr.1).bind
        (fun t => (exp_truth_table pr.1).map (fun e => e.getD (t.getD x 0) 0)) = some x := by
  decide

/-- Witness for C2: the prime 3 with primitive root 2 at x = 2. -/
theorem dlog_exp_tables_consistent_witness :
    (dlog_truth_table 3).map (fun t => powm 2 (t.getD 2 0) 3) = some 2 ∧
    (dlog_truth_table 3).bind
      (fun t => (exp_truth_table 3).map (fun e => e.getD (t.getD 2 0) 0)) = some 2 :=
  dlog_exp_tables_consistent (3, 2) (by decide) 2 (by decide) (by decide)

/-- C4 counterexample: the claim says `base_q_add([3], [4], 5) = [2, 1]`, but the
source drops a carry that runs past the last digit of the longer operand, returning
`[2]` (value 2, not 7). -/
theorem base_q_add_concrete_cex : base_q_add [3] [4] 5 ≠ some [2, 1] := by decide

/-- C4 (amended): with a headroom digit on the first operand the concrete scenario
holds, `base_q_add([3, 0], [4], 5) = [2, 1]` (value 7); on the original operands
`[3]`, `[4]` the carry past the end is dropped and the result is `[2]`. -/
theorem base_q_add_concrete : base_q_add [3, 0] [4] 5 = some [2, 1] ∧
    base_q_add [3] [4] 5 = some [2] := by decide

set_option maxRecDepth 4000 in
/-- C6: at the digit vector `[65535, 1, 1, ..., 1]` (127 ones) in base 2, whose exact
Horner value is `2 ^ 128 + 65533`, the guarded multiplication never overflows but the
unchecked addition of the final digit wraps: `from_base_q` silently returns
`65533` instead of failing loudly.  (The source's own `assert!` on `overflowing_mul`
shows the intent that any overflow be detected.) -/
theorem from_base_q_silent_wrap :
    from_base_q (65535 :: List.replicate 127 1) 2 = some 65533 ∧
    2 ^ 128 ≤ valueQ 2 (65535 :: List.replicate 127 1) := by decide

/-- C7: at `x = 1`, `ms = [5]` the fixed-width decomposition returns `[1]` while the
big-integer variant panics: `u16_from_bigint` unconditionally reads byte 1 of the
little-endian byte string, which does not exist for digits below 256 (and its
`(bs[1] as u16) << 16` shift is an overflow that cannot reconstruct the intended
value for digits of 256 and above either). -/
theorem as_mixed_radix_bigint_diverges :
    as_mixed_radix 1 [5] = some [1] ∧ as_mixed_radix_bigint 1 [5] = none ∧
    as_mixed_radix_bigint 300 [1000] = some [45] ∧ as_mixed_radix 300 [1000] = some [300] := by
  decide

/-- C8 counterexample: `digits_per_u128 3 = 64` digits do not cover the 128-bit
range: `x = 3 ^ 64` is a valid `u128` value with `¬ x < 3 ^ digits_per_u128 3`, and
`as_base_q x 3` rejects it (panicking assert). -/
theorem digits_per_u128_covers_cex :
    3 ^ 64 < 2 ^ 128 ∧ ¬ 3 ^ 64 < 3 ^ digits_per_u128 3 ∧ as_base_q (3 ^ 64) 3 = none := by
  decide

set_option maxRecDepth 8000 in
/-- C3 counterexample: the claimed identity fails for widths beyond the 128-bit
capacity: at `q = 2`, `n = 129`, `x = y = 2 ^ 128 - 1` the final reconstruction
overflows `u128` and panics instead of producing `(x + y) mod q ^ n`. -/
theorem base_q_add_roundtrip_cex :
    ((padded_base_q (2 ^ 128 - 1) 2 129).bind (fun xs =>
      (as_base_q (2 ^ 128 - 1) 2).bind (fun ys => base_q_add xs ys 2))).bind
      (fun zs => from_base_q zs 2) ≠
    some ((2 ^ 128 - 1 + (2 ^ 128 - 1)) % 2 ^ 129) := by decide

/-!
## Digit-vector machinery: decomposition, padding, carry addition, reconstruction
-/

/-- The quotient the source keeps after removing the emitted digit is the plain
division `x / m`. -/
theorem sub_mod_div_eq (x m : ℕ) : (x - x % m) / m = x / m := by
  rcases Nat.eq_zero_or_pos m with hm | hm
  · subst hm; simp
  · have h := Nat.mod_add_div x m
    have : x - x % m = m * (x / m) := by omega
    rw [this, Nat.mul_div_cancel_left _ hm]

/-- Digits below the base have Horner value below `q ^ length`. -/
theorem valueQ_lt (q : ℕ) : ∀ ds, (∀ d ∈ ds, d < q) → valueQ q ds < q ^ ds.length := by
  intro ds
  induction ds with
  | nil => intro _; simp [valueQ]
  | cons d rest ih =>
    intro h
    have hd : d < q := h d (List.mem_cons_self d rest)
    have hrest := ih (fun e he => h e (List.mem_cons_of_mem d he))
    have hq : 1 ≤ q := Nat.pos_of_ne_zero (by rintro rfl; exact Nat.not_lt_zero d hd)
    simp only [valueQ, List.length_cons, pow_succ]
    calc d + q * valueQ q rest ≤ (q - 1) + q * (q ^ rest.length - 1) := by
          have : valueQ q rest ≤ q ^ rest.length - 1 := by omega
          have := Nat.mul_le_mul_left q this
          omega
    _ < q ^ rest.length * q := by
          have hpow : 1 ≤ q ^ rest.length := Nat.one_le_pow _ _ hq
          have := Nat.mul_le_mul_left q hpow
          rw [Nat.mul_sub_one]
          rw [Nat.mul_comm (q ^ rest.length) q]
          omega

/-- A vector of zero digits has Horner value zero. -/
theorem valueQ_replicate_zero (q : ℕ) : ∀ k, valueQ q (List.replicate k 0) = 0 := by
  intro k
  induction k with
  | zero => rfl
  | succ k ihk => simp [List.replicate_succ, valueQ, ihk]

/-- Appending zero digits does not change the Horner value. -/
theorem valueQ_append_zeros (q : ℕ) : ∀ ds k, valueQ q (ds ++ List.replicate k 0) = valueQ q ds := by
  intro ds
  induction ds with
  | nil => intro k; simp [valueQ, valueQ_replicate_zero]
  | cons d rest ih => intro k; simp [valueQ, ih]

/-- Specification of `as_mixed_radix` on a uniform modulus sequence: for `x < q ^ n`
the decomposition succeeds, has Horner value `x`, digits below `q`, and length at
most any `k ≥ 1` with `x < q ^ k`. -/
theorem as_mixed_radix_replicate_spec (q : ℕ) (hq : 1 ≤ q) :
    ∀ n x, x < q ^ n →
      ∃ ds, as_mixed_radix x (List.replicate n q) = some ds ∧
        valueQ q ds = x ∧ ds.length ≤ n ∧ (∀ d ∈ ds, d < q) ∧
        (∀ k, 1 ≤ k → x < q ^ k → ds.length ≤ k) := by
  intro n
  induction n with
  | zero =>
    intro x hx
    have hx0 : x = 0 := by simpa using hx
    exact ⟨[], by simp [as_mixed_radix], by simp [valueQ, hx0], by simp, by simp, by simp⟩
  | succ n ih =>
    intro x hx
    rw [List.replicate_succ]
    by_cases hcase : q ≤ x
    · have hq0 : q ≠ 0 := by omega
      have hxq : x / q < q ^ n := by
        rw [Nat.div_lt_iff_lt_mul (by omega)]
        calc x < q ^ (n + 1) := hx
        _ = q ^ n * q := pow_succ q n
      obtain ⟨ds, hds, hval, hlen, hdig, hsharp⟩ := ih (x / q) hxq
      refine ⟨x % q :: ds, ?_, ?_, ?_, ?_, ?_⟩
      · simp only [as_mixed_radix, if_pos hcase, if_neg hq0, sub_mod_div_eq, hds,
          Option.map_some']
      · have hmd := Nat.mod_add_div x q
        simp only [valueQ, hval]; omega
      · simpa using Nat.succ_le_succ hlen
      · intro d hd
        rcases List.mem_cons.mp hd with h | h
        · subst h; exact Nat.mod_lt _ (by omega)
        · exact hdig d h
      · intro k hk hxk
        have hk2 : 2 ≤ k := by
          by_contra hlt
          have hk1 : k = 1 := by omega
          subst hk1
          rw [pow_one] at hxk
          omega
        have := hsharp (k - 1) (by omega) (by
          rw [Nat.div_lt_iff_lt_mul (by omega)]
          calc x < q ^ k := hxk
          _ = q ^ (k - 1) * q := by rw [← pow_succ]; congr 1; omega)
        simp only [List.length_cons]; omega
    · refine ⟨[x], by simp [as_mixed_radix, hcase], by simp [valueQ], by simp, ?_, ?_⟩
      · intro d hd; simp only [List.mem_singleton] at hd; subst hd; omega
      · intro k hk _; simpa using hk

/-- Specification of `padded_base_q`: for `x < q ^ n` it returns a length-`n` digit
vector with Horner value `x` and digits below `q`. -/
theorem padded_base_q_spec (q n x : ℕ) (hq : 1 ≤ q) (hx : x < q ^ n) :
    ∃ ds, padded_base_q x q n = some ds ∧ valueQ q ds = x ∧ ds.length = n ∧
      ∀ d ∈ ds, d < q := by
  obtain ⟨ds, hds, hval, hlen, hdig, _⟩ := as_mixed_radix_replicate_spec q hq n x hx
  refine ⟨ds ++ List.replicate (n - ds.length) 0, ?_, ?_, ?_, ?_⟩
  · simp [padded_base_q, padded_mixed_radix, hds]
  · simp [valueQ_append_zeros, hval]
  · simp only [List.length_append, List.length_replicate]; omega
  · intro d hd
    rcases List.mem_append.mp hd with h | h
    · exact hdig d h
    · have := List.eq_of_mem_replicate h; omega

/-- The carry-propagation loop, in the no-`u16`-wrap regime `q ≤ 32768` and with
in-bound digits: it preserves length and digit bounds and adds the carry modulo
`q ^ length`. -/
theorem carryLoop_spec (q : ℕ) (hq : 2 ≤ q) (hq2 : q ≤ 32768) :
    ∀ xs c, c ≤ 1 → (∀ d ∈ xs, d < q) →
      (carryLoop q xs c).length = xs.length ∧ (∀ d ∈ carryLoop q xs c, d < q) ∧
      valueQ q (carryLoop q xs c) = (valueQ q xs + c) % q ^ xs.length := by
  intro xs
  induction xs with
  | nil => intro c _ _; exact ⟨rfl, by simp [carryLoop], by simp [carryLoop, valueQ, Nat.mod_one]⟩
  | cons x rest ih =>
    intro c hc hdig
    have hx : x < q := hdig x (List.mem_cons_self x rest)
    have hrest : ∀ d ∈ rest, d < q := fun d hd => hdig d (List.mem_cons_of_mem x hd)
    have hs : (x + c) % 65536 = x + c := Nat.mod_eq_of_lt (by omega)
    have hvrest := valueQ_lt q rest hrest
    by_cases hcar : q ≤ (x + c) % 65536
    · rw [hs] at hcar
      have hc1 : c = 1 := by omega
      subst hc1
      have hxc : x + 1 = q := by omega
      obtain ⟨ihlen, ihdig, ihval⟩ := ih 1 (by omega) hrest
      have hstep : carryLoop q (x :: rest) 1 = ((x + 1) % 65536 - q) :: carryLoop q rest 1 := by
        simp only [carryLoop]
        rw [if_pos (by rw [hs]; omega)]
      rw [hstep, hs]
      refine ⟨by simp [ihlen], ?_, ?_⟩
      · intro d hd
        rcases List.mem_cons.mp hd with h | h
        · subst h; omega
        · exact ihdig d h
      · simp only [valueQ, List.length_cons, ihval, hxc, Nat.sub_self, Nat.zero_add]
        have hx1 : x + q * valueQ q rest + 1 = q * (valueQ q rest + 1) := by
          rw [Nat.mul_add, Nat.mul_one]; omega
        rw [hx1, pow_succ, Nat.mul_comm (q ^ rest.length) q, Nat.mul_mod_mul_left]
    · rw [hs] at hcar
      have hstep : carryLoop q (x :: rest) c = ((x + c) % 65536) :: rest := by
        simp only [carryLoop]
        rw [if_neg (by rw [hs]; omega)]
      rw [hstep, hs]
      refine ⟨by simp, ?_, ?_⟩
      · intro d hd
        rcases List.mem_cons.mp hd with h | h
        · subst h; omega
        · exact hrest d h
      · simp only [valueQ, List.length_cons]
        have h1 : q * (valueQ q rest + 1) ≤ q * q ^ rest.length := Nat.mul_le_mul_left q hvrest
        rw [Nat.mul_succ] at h1
        have hmul : q * q ^ rest.length = q ^ (rest.length + 1) := by rw [pow_succ, Nat.mul_comm]
        rw [Nat.mod_eq_of_lt (by omega)]
        omega

/-- Splitting a sum `r + q * T` with `r < q` modulo `q ^ (n + 1)`. -/
theorem add_mul_mod_pow_succ (q r T n : ℕ) (hr : r < q) :
    (r + q * T) % q ^ (n + 1) = r + q * (T % q ^ n) := by
  have hq : 1 ≤ q := by omega
  have hT := Nat.mod_add_div T (q ^ n)
  have hrw : r + q * T = r + q * (T % q ^ n) + q ^ (n + 1) * (T / q ^ n) := by
    calc r + q * T = r + q * (T % q ^ n + q ^ n * (T / q ^ n)) := by rw [hT]
    _ = r + q * (T % q ^ n) + (q * q ^ n) * (T / q ^ n) := by ring
    _ = r + q * (T % q ^ n) + q ^ (n + 1) * (T / q ^ n) := by
        rw [pow_succ, Nat.mul_comm (q ^ n) q]
  rw [hrw, Nat.add_mul_mod_self_left]
  have hmod : T % q ^ n < q ^ n := Nat.mod_lt _ (Nat.pos_pow_of_pos _ (by omega))
  have h1 : q * (T % q ^ n + 1) ≤ q * q ^ n := Nat.mul_le_mul_left q hmod
  rw [Nat.mul_succ] at h1
  have hm : q * q ^ n = q ^ (n + 1) := by rw [pow_succ, Nat.mul_comm]
  exact Nat.mod_eq_of_lt (by omega)

/-- The overlapping-digits loop of `base_q_add_eq`, in the no-wrap regime: it
returns a vector of the length of `xs` with digits below `q` whose Horner value is
the carry-completed sum modulo `q ^ length`. -/
theorem addOverlap_spec (q : ℕ) (hq : 2 ≤ q) (hq2 : q ≤ 32768) :
    ∀ ys xs c, ys.length ≤ xs.length → c ≤ 1 →
      (∀ d ∈ xs, d < q) → (∀ d ∈ ys, d < q) →
      ∃ zs, addOverlap q xs ys c = some zs ∧ zs.length = xs.length ∧
        (∀ d ∈ zs, d < q) ∧
        valueQ q zs = (valueQ q xs + valueQ q ys + c) % q ^ xs.length := by
  intro ys
  induction ys with
  | nil =>
    intro xs c hlen hc hxs _
    obtain ⟨h1, h2, h3⟩ := carryLoop_spec q hq hq2 xs c hc hxs
    exact ⟨carryLoop q xs c, by cases xs <;> rfl, h1, h2, by simpa [valueQ] using h3⟩
  | cons y ys ih =>
    intro xs0 c hlen hc hxs hys
    cases xs0 with
    | nil => simp at hlen
    | cons x xs =>
      have hx : x < q := hxs x (List.mem_cons_self x xs)
      have hy : y < q := hys y (List.mem_cons_self y ys)
      have hxs' : ∀ d ∈ xs, d < q := fun d hd => hxs d (List.mem_cons_of_mem x hd)
      have hys' : ∀ d ∈ ys, d < q := fun d hd => hys d (List.mem_cons_of_mem y hd)
      have hlen' : ys.length ≤ xs.length := by simpa using hlen
      have hs : (x + y + c) % 65536 = x + y + c := Nat.mod_eq_of_lt (by omega)
      by_cases hcar : q ≤ (x + y + c) % 65536
      · rw [hs] at hcar
        obtain ⟨zs, hzs, hzlen, hzdig, hzval⟩ := ih xs 1 hlen' (by omega) hxs' hys'
        refine ⟨((x + y + c) % 65536 - q) :: zs, ?_, by simp [hzlen], ?_, ?_⟩
        · simp only [addOverlap]
          rw [if_pos (by rw [hs]; omega), hzs, Option.map_some']
        · intro d hd
          rcases List.mem_cons.mp hd with h | h
          · subst h; omega
          · exact hzdig d h
        · simp only [valueQ, List.length_cons, hzval, hs]
          have hgoal : x + q * valueQ q xs + (y + q * valueQ q ys) + c =
              (x + y + c - q) + q * (valueQ q xs + valueQ q ys + 1) := by
            rw [Nat.mul_add, Nat.mul_add, Nat.mul_one]; omega
          rw [hgoal, add_mul_mod_pow_succ q _ _ _ (by omega)]
      · rw [hs] at hcar
        obtain ⟨zs, hzs, hzlen, hzdig, hzval⟩ := ih xs 0 hlen' (by omega) hxs' hys'
        refine ⟨((x + y + c) % 65536) :: zs, ?_, by simp [hzlen], ?_, ?_⟩
        · simp only [addOverlap]
          rw [if_neg (by rw [hs]; omega), hzs, Option.map_some']
        · intro d hd
          rcases List.mem_cons.mp hd with h | h
          · subst h; omega
          · exact hzdig d h
        · simp only [valueQ, List.length_cons, hzval, hs]
          have hgoal : x + q * valueQ q xs + (y + q * valueQ q ys) + c =
              (x + y + c) + q * (valueQ q xs + valueQ q ys + 0) := by
            rw [Nat.add_zero, Nat.mul_add]; omega
          rw [hgoal, add_mul_mod_pow_succ q _ _ _ (by omega)]

/-- The big-endian Horner fold only grows (for a positive base). -/
theorem foldl_horner_ge (q : ℕ) (hq : 1 ≤ q) :
    ∀ (l : List ℕ) (acc : ℕ), acc ≤ l.foldl (fun a d => a * q + d) acc := by
  intro l
  induction l with
  | nil => intro acc; exact Nat.le_refl acc
  | cons d rest ih =>
    intro acc
    calc acc ≤ acc * q + d := by
          have := Nat.mul_le_mul_left acc hq
          omega
    _ ≤ rest.foldl (fun a d => a * q + d) (acc * q + d) := ih _

/-- The `from_base_q` loop computes the big-endian Horner fold exactly whenever the
final value fits in 128 bits: no intermediate multiplication overflows and no
intermediate addition wraps. -/
theorem from_base_q_loop_spec (q : ℕ) (hq : 1 ≤ q) :
    ∀ l acc, l.foldl (fun a d => a * q + d) acc < 2 ^ 128 →
      from_base_q_loop q l acc = some (l.foldl (fun a d => a * q + d) acc) := by
  intro l
  induction l with
  | nil => intro acc _; rfl
  | cons d rest ih =>
    intro acc hb
    rw [List.foldl_cons] at hb ⊢
    have hacc : acc * q + d < 2 ^ 128 :=
      Nat.lt_of_le_of_lt (foldl_horner_ge q hq rest (acc * q + d)) hb
    simp only [from_base_q_loop]
    rw [if_neg (by omega), Nat.mod_eq_of_lt hacc]
    exact ih _ hb

/-- The big-endian Horner fold of the reversed digit list is the little-endian
Horner value. -/
theorem foldl_reverse_valueQ (q : ℕ) :
    ∀ ds acc, ds.reverse.foldl (fun a d => a * q + d) acc = acc * q ^ ds.length + valueQ q ds := by
  intro ds
  induction ds with
  | nil => intro acc; simp [valueQ]
  | cons d rest ih =>
    intro acc
    rw [List.reverse_cons, List.foldl_append, ih]
    simp only [List.foldl_cons, List.foldl_nil, valueQ, List.length_cons]
    ring

/-- `from_base_q` returns the exact Horner value whenever that value is
representable in 128 bits. -/
theorem from_base_q_exact (q : ℕ) (hq : 1 ≤ q) (ds : List ℕ) (h : valueQ q ds < 2 ^ 128) :
    from_base_q ds q = some (valueQ q ds) := by
  unfold from_base_q
  have hfold : ds.reverse.foldl (fun a d => a * q + d) 0 = valueQ q ds := by
    rw [foldl_reverse_valueQ]; ring
  rw [from_base_q_loop_spec q hq ds.reverse 0 (by rw [hfold]; exact h), hfold]

/-- `clog2Aux` with enough fuel bounds its argument: `q ≤ 2 ^ clog2Aux fuel q`
whenever `q ≤ 2 ^ fuel`. -/
theorem clog2Aux_covers : ∀ fuel q, q ≤ 2 ^ fuel → q ≤ 2 ^ clog2Aux fuel q := by
  intro fuel
  induction fuel with
  | zero => intro q h; simpa [clog2Aux] using h
  | succ fuel ih =>
    intro q h
    by_cases hq1 : q ≤ 1
    · simp only [clog2Aux, if_pos hq1, pow_zero]; exact hq1
    · simp only [clog2Aux, if_neg hq1]
      have hhalf : (q + 1) / 2 ≤ 2 ^ fuel := by
        rw [pow_succ] at h; omega
      have := ih ((q + 1) / 2) hhalf
      rw [pow_succ]
      omega

/-- The base-`q` capacity of `digits_per_u128 q` digits never exceeds the `u128`
range. -/
theorem pow_digits_per_u128_le (q : ℕ) (hq16 : q ≤ 65536) :
    q ^ digits_per_u128 q ≤ 2 ^ 128 := by
  have hcov : q ≤ 2 ^ clog2Aux 17 q :=
    clog2Aux_covers 17 q (by calc q ≤ 65536 := hq16
                               _ ≤ 2 ^ 17 := by norm_num)
  calc q ^ digits_per_u128 q ≤ (2 ^ clog2Aux 17 q) ^ digits_per_u128 q :=
        Nat.pow_le_pow_left hcov _
  _ = 2 ^ (clog2Aux 17 q * digits_per_u128 q) := by rw [pow_mul]
  _ ≤ 2 ^ 128 := by
      apply Nat.pow_le_pow_right (by norm_num)
      unfold digits_per_u128
      rw [Nat.mul_comm]
      exact Nat.div_mul_le_self 128 (clog2Aux 17 q)

/-- `clog2Aux` never exceeds its fuel. -/
theorem clog2Aux_le_fuel : ∀ fuel q, clog2Aux fuel q ≤ fuel := by
  intro fuel
  induction fuel with
  | zero => intro q; exact Nat.le_refl 0
  | succ fuel ih =>
    intro q
    by_cases hq1 : q ≤ 1
    · simp [clog2Aux, hq1]
    · simp only [clog2Aux, if_neg hq1]
      exact Nat.succ_le_succ (ih _)

/-- For `q ≥ 2` the ceiling log is positive. -/
theorem clog2Aux_pos : ∀ fuel q, 2 ≤ q → 1 ≤ clog2Aux (fuel + 1) q := by
  intro fuel q hq
  simp only [clog2Aux, if_neg (by omega : ¬ q ≤ 1)]
  omega

/-- `digits_per_u128` is at least 7 for `q ≥ 2` (the fuel 17 bounds the ceiling
log). -/
theorem digits_per_u128_pos (q : ℕ) (hq : 2 ≤ q) : 7 ≤ digits_per_u128 q := by
  unfold digits_per_u128
  have h17 := clog2Aux_le_fuel 17 q
  have h1 : 1 ≤ clog2Aux 17 q := clog2Aux_pos 16 q hq
  calc 7 = 128 / 17 := by norm_num
  _ ≤ 128 / clog2Aux 17 q := Nat.div_le_div_left h17 (by omega)

/-- C8 (amended): `as_base_q x q` accepts every `x` below the capacity
`q ^ digits_per_u128 q` of `digits_per_u128 q` digits (for `2 ≤ q < 2 ^ 16`); the
full 128-bit range is not always covered (see the counterexample at `q = 3`). -/
theorem as_base_q_accepts (q x : ℕ) (hq : 2 ≤ q) (hq16 : q < 65536)
    (hx : x < q ^ digits_per_u128 q) : ∃ ds, as_base_q x q = some ds := by
  obtain ⟨ds, hds, -, -, -, -⟩ :=
    as_mixed_radix_replicate_spec q (by omega) (digits_per_u128 q) x hx
  exact ⟨ds, by rw [as_base_q, if_pos hx]; exact hds⟩

/-- Witness for C8: base 3 accepts 5. -/
theorem as_base_q_accepts_witness : ∃ ds, as_base_q 5 3 = some ds :=
  as_base_q_accepts 3 5 (by decide) (by decide) (by decide)

/-- Positional digit bounds of `as_mixed_radix` for an arbitrary modulus sequence
with moduli at least 2. -/
theorem as_mixed_radix_bounds :
    ∀ (ms : List ℕ) (x : ℕ), (∀ m ∈ ms, 2 ≤ m) →
      ∃ ds, as_mixed_radix x ms = some ds ∧ ds.length ≤ ms.length ∧
        ∀ i, i < ds.length → ds.getD i 0 < ms.getD i 0 := by
  intro ms
  induction ms with
  | nil => intro x _; exact ⟨[], rfl, Nat.le_refl 0, by intro i hi; simp at hi⟩
  | cons m ms ih =>
    intro x hms
    have hm : 2 ≤ m := hms m (List.mem_cons_self m ms)
    have hms' : ∀ m0 ∈ ms, 2 ≤ m0 := fun m0 h0 => hms m0 (List.mem_cons_of_mem m h0)
    by_cases hcase : m ≤ x
    · obtain ⟨ds, hds, hlen, hbnd⟩ := ih ((x - x % m) / m) hms'
      refine ⟨x % m :: ds, ?_, by simpa using Nat.succ_le_succ hlen, ?_⟩
      · simp only [as_mixed_radix, if_pos hcase, if_neg (by omega : ¬ m = 0), hds,
          Option.map_some']
      · intro i hi
        match i with
        | 0 => simpa using Nat.mod_lt x (by omega)
        | i + 1 =>
          simp only [List.getD_cons_succ]
          exact hbnd i (by simpa using hi)
    · refine ⟨[x], by simp [as_mixed_radix, hcase], by simp, ?_⟩
      intro i hi
      simp only [List.length_singleton] at hi
      match i with
      | 0 => simp only [List.getD_cons_zero]; omega

/-- Digit bounds of `carryLoop` for any `u16` base `q ≥ 2` (including the regime
where the `u16` addition wraps). -/
theorem carryLoop_bounds (q : ℕ) (hq : 2 ≤ q) (hq16 : q < 65536) :
    ∀ xs c, c ≤ 1 → (∀ d ∈ xs, d < q) → ∀ d ∈ carryLoop q xs c, d < q := by
  intro xs
  induction xs with
  | nil => intro c _ _ d hd; simp [carryLoop] at hd
  | cons x rest ih =>
    intro c hc hdig
    have hx : x < q := hdig x (List.mem_cons_self x rest)
    have hrest : ∀ d ∈ rest, d < q := fun d hd => hdig d (List.mem_cons_of_mem x hd)
    have hs : (x + c) % 65536 = x + c := Nat.mod_eq_of_lt (by omega)
    intro d hd
    by_cases hcar : q ≤ (x + c) % 65536
    · rw [show carryLoop q (x :: rest) c = ((x + c) % 65536 - q) :: carryLoop q rest c by
        simp only [carryLoop]; rw [if_pos hcar]] at hd
      rcases List.mem_cons.mp hd with h | h
      · subst h; rw [hs] at hcar ⊢; omega
      · exact ih c hc hrest d h
    · rw [show carryLoop q (x :: rest) c = ((x + c) % 65536) :: rest by
        simp only [carryLoop]; rw [if_neg hcar]] at hd
      rcases List.mem_cons.mp hd with h | h
      · subst h; rw [hs]; rw [hs] at hcar; omega
      · exact hrest d h

/-- Digit bounds of the overlap loop for any `u16` base `q ≥ 2`: even when the
`u16` digit addition wraps, every output digit stays below `q`. -/
theorem addOverlap_bounds (q : ℕ) (hq : 2 ≤ q) (hq16 : q < 65536) :
    ∀ ys xs c, ys.length ≤ xs.length → c ≤ 1 →
      (∀ d ∈ xs, d < q) → (∀ d ∈ ys, d < q) →
      ∃ zs, addOverlap q xs ys c = some zs ∧ ∀ d ∈ zs, d < q := by
  intro ys
  induction ys with
  | nil =>
    intro xs c hlen hc hxs _
    exact ⟨carryLoop q xs c, by cases xs <;> rfl, carryLoop_bounds q hq hq16 xs c hc hxs⟩
  | cons y ys ih =>
    intro xs0 c hlen hc hxs hys
    cases xs0 with
    | nil => simp at hlen
    | cons x xs =>
      have hx : x < q := hxs x (List.mem_cons_self x xs)
      have hy : y < q := hys y (List.mem_cons_self y ys)
      have hxs' : ∀ d ∈ xs, d < q := fun d hd => hxs d (List.mem_cons_of_mem x hd)
      have hys' : ∀ d ∈ ys, d < q := fun d hd => hys d (List.mem_cons_of_mem y hd)
      have hlen' : ys.length ≤ xs.length := by simpa using hlen
      by_cases hcar : q ≤ (x + y + c) % 65536
      · obtain ⟨zs, hzs, hzdig⟩ := ih xs 1 hlen' (by omega) hxs' hys'
        refine ⟨((x + y + c) % 65536 - q) :: zs, ?_, ?_⟩
        · simp only [addOverlap]; rw [if_pos hcar, hzs, Option.map_some']
        · intro d hd
          rcases List.mem_cons.mp hd with h | h
          · subst h
            have hw : (x + y + c) % 65536 < 2 * q := by omega
            omega
          · exact hzdig d h
      · obtain ⟨zs, hzs, hzdig⟩ := ih xs 0 hlen' (by omega) hxs' hys'
        refine ⟨((x + y + c) % 65536) :: zs, ?_, ?_⟩
        · simp only [addOverlap]; rw [if_neg hcar, hzs, Option.map_some']
        · intro d hd
          rcases List.mem_cons.mp hd with h | h
          · subst h
            have hw : (x + y + c) % 65536 < q := by omega
            omega
          · exact hzdig d h

/-- C10: every digit vector the module produces respects its positional bounds.
(i) For every `x` (`u128`) and modulus sequence with moduli at least 2, every digit
of `as_mixed_radix x ms` is strictly below its positional modulus.  (ii) For every
`u16` base `q ≥ 2` and digit vectors `xs`, `ys` with digits below `q` and `ys` no
longer than `xs`, every digit after `base_q_add_eq xs ys q` is strictly below `q`. -/
theorem digit_bounds :
    (∀ (x : ℕ) (ms : List ℕ), x < 2 ^ 128 → (∀ m ∈ ms, 2 ≤ m) →
      ∃ ds, as_mixed_radix x ms = some ds ∧ ds.length ≤ ms.length ∧
        ∀ i, i < ds.length → ds.getD i 0 < ms.getD i 0) ∧
    (∀ (q : ℕ) (xs ys : List ℕ), 2 ≤ q → q < 65536 → ys.length ≤ xs.length →
      (∀ d ∈ xs, d < q) → (∀ d ∈ ys, d < q) →
      ∃ zs, base_q_add_eq xs ys q = some zs ∧ ∀ d ∈ zs, d < q) := by
  constructor
  · intro x ms _ hms
    exact as_mixed_radix_bounds ms x hms
  · intro q xs ys hq hq16 hlen hxs hys
    exact addOverlap_bounds q hq hq16 ys xs 0 hlen (by omega) hxs hys

/-- Witness for C10: part (i) at `x = 7`, `ms = [2, 3, 5]`; part (ii) at
`xs = [3]`, `ys = [4]`, `q = 5`. -/
theorem digit_bounds_witness :
    (∃ ds, as_mixed_radix 7 [2, 3, 5] = some ds ∧ ds.length ≤ [2, 3, 5].length ∧
      ∀ i, i < ds.length → ds.getD i 0 < [2, 3, 5].getD i 0) ∧
    (∃ zs, base_q_add_eq [3] [4] 5 = some zs ∧ ∀ d ∈ zs, d < 5) :=
  ⟨digit_bounds.1 7 [2, 3, 5] (by decide) (by decide),
   digit_bounds.2 5 [3] [4] (by decide) (by decide) (by decide) (by decide) (by decide)⟩

/-- C3 (amended): for every base `q` in `[2, 112]`, every width `n` up to
`digits_per_u128 q` (so that the reconstruction stays within `u128`), and all
`x, y < q ^ n`, adding the padded decomposition of `x` and the natural decomposition
of `y` digit-wise and reconstructing yields `(x + y) % q ^ n`.  (Without the width
bound the final reconstruction can overflow; see the counterexample.) -/
theorem base_q_add_mod_correct (q n x y : ℕ) (hq : 2 ≤ q) (hq112 : q ≤ 112)
    (hn : n ≤ digits_per_u128 q) (hx : x < q ^ n) (hy : y < q ^ n) :
    ((padded_base_q x q n).bind (fun xs =>
      (as_base_q y q).bind (fun ys => base_q_add xs ys q))).bind
      (fun zs => from_base_q zs q) = some ((x + y) % q ^ n) := by
  have hqN : q ^ n ≤ q ^ digits_per_u128 q := Nat.pow_le_pow_right (by omega) hn
  have h128 : q ^ digits_per_u128 q ≤ 2 ^ 128 := pow_digits_per_u128_le q (by omega)
  have hyN : y < q ^ digits_per_u128 q := Nat.lt_of_lt_of_le hy hqN
  rcases Nat.eq_zero_or_pos n with hn0 | hn1
  · subst hn0
    have hx0 : x = 0 := by simpa using hx
    have hy0 : y = 0 := by simpa using hy
    subst hx0; subst hy0
    have hpad : padded_base_q 0 q 0 = some [] := rfl
    have hrep : List.replicate (digits_per_u128 q) q =
        q :: List.replicate (digits_per_u128 q - 1) q := by
      rw [← List.replicate_succ]
      congr 1
      have := digits_per_u128_pos q hq
      omega
    have hbq : as_base_q 0 q = some [0] := by
      rw [as_base_q, if_pos (Nat.pos_pow_of_pos _ (by omega)), hrep]
      simp [as_mixed_radix, show ¬ q ≤ 0 by omega]
    have hadd : base_q_add [] [0] q = some [0] := by
      rw [base_q_add, if_pos (by simp)]
      show addOverlap q [0] [] 0 = some [0]
      show some (carryLoop q [0] 0) = some [0]
      simp [carryLoop, show ¬ q ≤ (0 + 0) % 65536 by omega]
    rw [hpad, Option.some_bind, hbq, Option.some_bind, hadd, Option.some_bind]
    have := from_base_q_exact q (by omega) [0] (by simp [valueQ])
    simpa [valueQ] using this
  · obtain ⟨xs, hxscomp, hxval, hxlen, hxdig⟩ := padded_base_q_spec q n x (by omega) hx
    obtain ⟨ys, hyscomp0, hyval, -, hydig, hysharp⟩ :=
      as_mixed_radix_replicate_spec q (by omega) (digits_per_u128 q) y hyN
    have hyslen : ys.length ≤ n := hysharp n hn1 hy
    have hyscomp : as_base_q y q = some ys := by rw [as_base_q, if_pos hyN]; exact hyscomp0
    obtain ⟨zs, hzs, hzlen, hzdig, hzval⟩ :=
      addOverlap_spec q hq (by omega) ys xs 0 (by omega) (by omega) hxdig hydig
    have hadd : base_q_add xs ys q = some zs := by
      rw [base_q_add, if_neg (by omega)]
      exact hzs
    have hzval' : valueQ q zs = (x + y) % q ^ n := by
      rw [hzval, hxval, hyval, hxlen, Nat.add_zero]
    have hzlt : valueQ q zs < 2 ^ 128 := by
      rw [hzval']
      exact Nat.lt_of_lt_of_le (Nat.lt_of_lt_of_le (Nat.mod_lt _ (Nat.pos_pow_of_pos _ (by omega))) hqN) h128
    rw [hxscomp, Option.some_bind, hyscomp, Option.some_bind, hadd, Option.some_bind,
      from_base_q_exact q (by omega) zs hzlt, hzval']

/-- Witness for C3: `q = 5`, `n = 2`, `x = 3`, `y = 4` reconstructs to `7 % 25`. -/
theorem base_q_add_mod_correct_witness :
    ((padded_base_q 3 5 2).bind (fun xs =>
      (as_base_q 4 5).bind (fun ys => base_q_add xs ys 5))).bind
      (fun zs => from_base_q zs 5) = some ((3 + 4) % 5 ^ 2) :=
  base_q_add_mod_correct 5 2 3 4 (by decide) (by decide) (by decide) (by decide) (by decide)

/-- Every entry of the fixed prime table is prime. -/
theorem PRIMES_prime : ∀ p ∈ PRIMES, Nat.Prime p := by decide

/-- The fixed prime table has no duplicates. -/
theorem PRIMES_nodup : PRIMES.Nodup := by decide

/-- Soundness of the factor loop: it returns a sublist of the scanned primes whose
product times the residual is the input. -/
theorem factorLoop_sound : ∀ (ps : List ℕ) (x : ℕ), (∀ p ∈ ps, 1 ≤ p) →
    x = (factorLoop ps x).1.prod * (factorLoop ps x).2 ∧ (factorLoop ps x).1.Sublist ps := by
  intro ps
  induction ps with
  | nil => intro x _; exact ⟨by simp [factorLoop], List.Sublist.refl []⟩
  | cons p ps ih =>
    intro x hpos
    have hp1 : 1 ≤ p := hpos p (List.mem_cons_self p ps)
    have hpos' : ∀ p0 ∈ ps, 1 ≤ p0 := fun p0 h0 => hpos p0 (List.mem_cons_of_mem p h0)
    by_cases hdvd : x % p = 0
    · obtain ⟨hprod, hsub⟩ := ih (x / p) hpos'
      have hstep : factorLoop (p :: ps) x =
          (p :: (factorLoop ps (x / p)).1, (factorLoop ps (x / p)).2) := by
        simp only [factorLoop, if_pos hdvd]
      rw [hstep]
      constructor
      · simp only [List.prod_cons]
        have hx : x = p * (x / p) := by
          have := Nat.mod_add_div x p
          omega
        rw [Nat.mul_assoc, ← hprod]
        exact hx
      · exact List.Sublist.cons₂ p hsub
    · obtain ⟨hprod, hsub⟩ := ih x hpos'
      have hstep : factorLoop (p :: ps) x = factorLoop ps x := by
        simp only [factorLoop, if_neg hdvd]
      rw [hstep]
      exact ⟨hprod, List.Sublist.cons p hsub⟩

/-- Completeness of the factor loop: on the product of any sublist of a list of
distinct primes, it recovers exactly that sublist with residual 1. -/
theorem factorLoop_complete : ∀ (ps l : List ℕ), l.Sublist ps →
    (∀ p ∈ ps, Nat.Prime p) → ps.Nodup → factorLoop ps l.prod = (l, 1) := by
  intro ps
  induction ps with
  | nil =>
    intro l hsub _ _
    rw [List.sublist_nil.mp hsub]
    rfl
  | cons p ps ih =>
    intro l hsub hprime hnodup
    have hp : Nat.Prime p := hprime p (List.mem_cons_self p ps)
    have hprime' : ∀ p0 ∈ ps, Nat.Prime p0 := fun p0 h0 => hprime p0 (List.mem_cons_of_mem p h0)
    have hnodup' : ps.Nodup := hnodup.of_cons
    have hpnotin : p ∉ ps := by
      have := List.nodup_cons.mp hnodup
      exact this.1
    cases hsub with
    | cons _ htail =>
      have hpl : p ∉ l := fun hmem => hpnotin (htail.subset hmem)
      have hnd : ¬ l.prod % p = 0 := by
        intro hmod
        have hdvd : p ∣ l.prod := Nat.dvd_of_mod_eq_zero hmod
        obtain ⟨a, ha, hpa⟩ := (Nat.Prime.prime hp).dvd_prod_iff.mp hdvd
        have haprime : Nat.Prime a := hprime' a (htail.subset ha)
        have : p = a := (Nat.prime_dvd_prime_iff_eq hp haprime).mp hpa
        exact hpl (this ▸ ha)
      have hstep : factorLoop (p :: ps) l.prod = factorLoop ps l.prod := by
        simp only [factorLoop, if_neg hnd]
      rw [hstep]
      exact ih l htail hprime' hnodup'
    | cons₂ _ htail =>
      rename_i l'
      have hprod : (p :: l').prod = p * l'.prod := List.prod_cons
      have hmod : (p :: l').prod % p = 0 := by rw [hprod]; exact Nat.mul_mod_right p _
      have hdiv : (p :: l').prod / p = l'.prod := by
        rw [hprod]
        exact Nat.mul_div_cancel_left _ hp.pos
      have hstep : factorLoop (p :: ps) (p :: l').prod =
          (p :: (factorLoop ps ((p :: l').prod / p)).1,
           (factorLoop ps ((p :: l').prod / p)).2) := by
        simp only [factorLoop, if_pos hmod]
      rw [hstep, hdiv, ih l' htail hprime' hnodup']

/-- C9: `factor` returns exactly the (ascending) sublist of the prime table whose
product is the input when the input is such a square-free product, and fails (fatal
error, modelled `none`) on every other input: any returned list is a sublist of
`PRIMES` multiplying back to the input. -/
theorem factor_squarefree :
    (∀ l : List ℕ, l.Sublist PRIMES → factor l.prod = some l) ∧
    (∀ x : ℕ, 1 ≤ x → factor x = none ∨
      ∃ l, l.Sublist PRIMES ∧ x = l.prod ∧ factor x = some l) := by
  constructor
  · intro l hsub
    show (if (factorLoop PRIMES l.prod).2 = 1 then some (factorLoop PRIMES l.prod).1 else none) =
      some l
    rw [factorLoop_complete PRIMES l hsub PRIMES_prime PRIMES_nodup]
    simp
  · intro x _
    by_cases hr : (factorLoop PRIMES x).2 = 1
    · right
      obtain ⟨hprod, hsub⟩ :=
        factorLoop_sound PRIMES x (fun p hp => (PRIMES_prime p hp).pos)
      refine ⟨(factorLoop PRIMES x).1, hsub, ?_, ?_⟩
      · conv_lhs => rw [hprod]
        rw [hr, Nat.mul_one]
      · show (if (factorLoop PRIMES x).2 = 1 then some (factorLoop PRIMES x).1 else none) =
          some (factorLoop PRIMES x).1
        rw [if_pos hr]
    · left
      show (if (factorLoop PRIMES x).2 = 1 then some (factorLoop PRIMES x).1 else none) = none
      rw [if_neg hr]

/-- Witness for C9: `factor 10 = some [2, 5]`, and the dichotomy at `x = 4`. -/
theorem factor_squarefree_witness :
    factor ([2, 5] : List ℕ).prod = some [2, 5] ∧
    (factor 4 = none ∨ ∃ l, l.Sublist PRIMES ∧ 4 = l.prod ∧ factor 4 = some l) :=
  ⟨factor_squarefree.1 [2, 5] (by decide), factor_squarefree.2 4 (by decide)⟩

/-- `Int.tmod` on natural casts is the natural remainder. -/
theorem tmod_natCast (m n : ℕ) : Int.tmod (m : ℤ) (n : ℤ) = ((m % n : ℕ) : ℤ) := rfl

/-- `Int.tdiv` on natural casts is the natural quotient. -/
theorem tdiv_natCast (m n : ℕ) : Int.tdiv (m : ℤ) (n : ℤ) = ((m / n : ℕ) : ℤ) := rfl

/-- Invariant-carrying specification of the extended-Euclid loop.  For the original
inputs `A ≥ 0` and modulus `B > 1`, from any reachable state `(a, b, x0, x1)` with
the Bezout invariants below, the loop returns a normalized inverse of `A` modulo
`B` in `[0, B)`.  The invariants: `x1*A ≡ a` and `x0*A ≡ b (mod B)`; the exact
magnitude identity `|x0|*a + |x1|*b = B`; alternating signs of `x0`, `x1`;
`gcd a b = 1`; and `|x1| < B` in the degenerate `b = 0` state. -/
theorem invLoop_spec (A B : ℤ) (hB : 1 < B) :
    ∀ (b a fuel : ℕ) (x0 x1 : ℤ),
      b + 1 ≤ fuel →
      1 ≤ a →
      Nat.gcd a b = 1 →
      x1 * A ≡ (a : ℤ) [ZMOD B] →
      x0 * A ≡ (b : ℤ) [ZMOD B] →
      (x0.natAbs : ℤ) * a + (x1.natAbs : ℤ) * b = B →
      (x0 ≤ 0 ∧ 0 ≤ x1 ∨ x1 ≤ 0 ∧ 0 ≤ x0) →
      (b = 0 → (x1.natAbs : ℤ) < B) →
      ∃ r, invLoop B fuel (a : ℤ) (b : ℤ) x0 x1 = some r ∧
        0 ≤ r ∧ r < B ∧ r * A ≡ 1 [ZMOD B] := by
  intro b
  induction b using Nat.strong_induction_on with
  | _ b ih =>
    intro a fuel x0 x1 hfuel ha hgcd h4 h5 h6 h7 h8
    obtain ⟨f, rfl⟩ : ∃ f, fuel = f + 1 := ⟨fuel - 1, by omega⟩
    by_cases ha1 : 1 < a
    · have hb0 : b ≠ 0 := by
        intro hb
        subst hb
        rw [Nat.gcd_zero_right] at hgcd
        omega
      have hstep : invLoop B (f + 1) (a : ℤ) (b : ℤ) x0 x1 =
          invLoop B f (b : ℤ) (Int.tmod a b) (x1 - Int.tdiv a b * x0) x0 := by
        simp only [invLoop]
        rw [if_pos (by exact_mod_cast ha1), if_neg (by exact_mod_cast hb0)]
      rw [hstep, tmod_natCast, tdiv_natCast]
      have hdm : b * (a / b) + a % b = a := Nat.div_add_mod a b
      have hzdm : ((a : ℤ)) = (b : ℤ) * ((a / b : ℕ) : ℤ) + ((a % b : ℕ) : ℤ) := by
        exact_mod_cast hdm.symm
      have hmodlt : a % b < b := Nat.mod_lt a (by omega)
      have hgcd' : Nat.gcd b (a % b) = 1 := by
        rw [Nat.gcd_comm b (a % b), ← Nat.gcd_rec b a, Nat.gcd_comm b a]
        exact hgcd
      have h5' : (x1 - ((a / b : ℕ) : ℤ) * x0) * A ≡ ((a % b : ℕ) : ℤ) [ZMOD B] := by
        have hq := Int.ModEq.mul_left ((a / b : ℕ) : ℤ) h5
        have := Int.ModEq.sub h4 hq
        have hrw : x1 * A - ((a / b : ℕ) : ℤ) * (x0 * A) =
            (x1 - ((a / b : ℕ) : ℤ) * x0) * A := by ring
        rw [hrw] at this
        have hval : (a : ℤ) - ((a / b : ℕ) : ℤ) * (b : ℤ) = ((a % b : ℕ) : ℤ) := by
          rw [hzdm]; ring
        rwa [hval] at this
      rcases h7 with ⟨hx0n, hx1p⟩ | ⟨hx1n, hx0p⟩
      · have hx0' : 0 ≤ x1 - ((a / b : ℕ) : ℤ) * x0 := by
          have hq0 : (0 : ℤ) ≤ ((a / b : ℕ) : ℤ) := Int.natCast_nonneg _
          nlinarith
        have habs0 : ((x1 - ((a / b : ℕ) : ℤ) * x0).natAbs : ℤ) =
            x1 + ((a / b : ℕ) : ℤ) * (-x0) := by
          rw [Int.natAbs_of_nonneg hx0']; ring
        have habs1 : (x0.natAbs : ℤ) = -x0 := Int.ofNat_natAbs_of_nonpos hx0n
        have habsx1 : (x1.natAbs : ℤ) = x1 := Int.natAbs_of_nonneg hx1p
        rw [habs1, habsx1] at h6
        have h6' : ((x1 - ((a / b : ℕ) : ℤ) * x0).natAbs : ℤ) * b +
            (x0.natAbs : ℤ) * (a % b : ℕ) = B := by
          rw [habs0, habs1]
          linear_combination h6 + x0 * hzdm
        have h8' : a % b = 0 → ((x0.natAbs : ℤ) : ℤ) < B := by
          intro hr0
          rw [hr0, Nat.gcd_zero_right] at hgcd'
          subst hgcd'
          rw [habs1]
          have h2a : (-x0) * 2 ≤ (-x0) * a := by
            apply mul_le_mul_of_nonneg_left (by exact_mod_cast ha1) (by omega)
          push_cast at h6
          omega
        exact ih (a % b) hmodlt b f (x1 - ((a / b : ℕ) : ℤ) * x0) x0
          (by omega) (by omega) hgcd' h5 h5' h6' (Or.inr ⟨hx0n, hx0'⟩) h8'
      · have hx0' : x1 - ((a / b : ℕ) : ℤ) * x0 ≤ 0 := by
          have hq0 : (0 : ℤ) ≤ ((a / b : ℕ) : ℤ) := Int.natCast_nonneg _
          nlinarith
        have habs0 : ((x1 - ((a / b : ℕ) : ℤ) * x0).natAbs : ℤ) =
            -x1 + ((a / b : ℕ) : ℤ) * x0 := by
          rw [Int.ofNat_natAbs_of_nonpos hx0']; ring
        have habs1 : (x0.natAbs : ℤ) = x0 := Int.natAbs_of_nonneg hx0p
        have habsx1 : (x1.natAbs : ℤ) = -x1 := Int.ofNat_natAbs_of_nonpos hx1n
        rw [habs1, habsx1] at h6
        have h6' : ((x1 - ((a / b : ℕ) : ℤ) * x0).natAbs : ℤ) * b +
            (x0.natAbs : ℤ) * (a % b : ℕ) = B := by
          rw [habs0, habs1]
          linear_combination h6 - x0 * hzdm
        have h8' : a % b = 0 → ((x0.natAbs : ℤ) : ℤ) < B := by
          intro hr0
          rw [hr0, Nat.gcd_zero_right] at hgcd'
          subst hgcd'
          rw [habs1]
          have h2a : x0 * 2 ≤ x0 * a := by
            apply mul_le_mul_of_nonneg_left (by exact_mod_cast ha1) (by omega)
          push_cast at h6
          omega
        exact ih (a % b) hmodlt b f (x1 - ((a / b : ℕ) : ℤ) * x0) x0
          (by omega) (by omega) hgcd' h5 h5' h6' (Or.inl ⟨hx0', hx0p⟩) h8'
    · have ha' : a = 1 := by omega
      subst ha'
      have hexit : invLoop B (f + 1) ((1 : ℕ) : ℤ) (b : ℤ) x0 x1 =
          some (if x1 < 0 then x1 + B else x1) := by
        simp only [invLoop]
        rw [if_neg (by exact_mod_cast ha1)]
      have hcong : x1 * A ≡ 1 [ZMOD B] := by simpa using h4
      have habs : (x1.natAbs : ℤ) < B := by
        rcases Nat.eq_zero_or_pos b with hb0 | hb1
        · exact h8 hb0
        · have hx1ne : x1 ≠ 0 := by
            intro h0
            subst h0
            have : B ∣ 1 - 0 := Int.ModEq.dvd (by simpa using hcong)
            have := Int.le_of_dvd (by omega) this
            omega
          have hvpos : 1 ≤ (x1.natAbs : ℤ) := by
            have := Int.natAbs_pos.mpr hx1ne
            exact_mod_cast this
          have hble : (x1.natAbs : ℤ) ≤ (x1.natAbs : ℤ) * b := by
            apply le_mul_of_one_le_right (by omega)
            exact_mod_cast hb1
          simp only [Nat.cast_one, mul_one] at h6
          by_cases hvB : (x1.natAbs : ℤ) = B
          · exfalso
            rw [hvB] at h6 hble
            have hbone : (b : ℤ) = 1 := by nlinarith [Int.natCast_nonneg x0.natAbs]
            have hx00 : (x0.natAbs : ℤ) = 0 := by omega
            have hx0z : x0 = 0 := Int.natAbs_eq_zero.mp (by exact_mod_cast hx00)
            subst hx0z
            rw [hbone] at h5
            have : B ∣ 1 - 0 := Int.ModEq.dvd (by simpa using h5)
            have := Int.le_of_dvd (by omega) this
            omega
          · omega
      rw [hexit]
      by_cases hneg : x1 < 0
      · refine ⟨x1 + B, by rw [if_pos hneg], ?_, ?_, ?_⟩
        · have : (x1.natAbs : ℤ) = -x1 := Int.ofNat_natAbs_of_nonpos (by omega)
          omega
        · omega
        · have hrw : (x1 + B) * A = x1 * A + B * A := by ring
          show ((x1 + B) * A) % B = 1 % B
          rw [hrw, Int.add_mul_emod_self_left]
          exact hcong
      · refine ⟨x1, by rw [if_neg hneg], by omega, ?_, hcong⟩
        have : (x1.natAbs : ℤ) = x1 := Int.natAbs_of_nonneg (by omega)
        omega

/-- `inv_ref` on a non-negative `A` and modulus `B > 1` with `gcd A B = 1` returns
the inverse of `A` modulo `B`, normalized into `[0, B)`. -/
theorem inv_ref_spec (A B : ℤ) (hA : 0 ≤ A) (hB : 1 < B) (hgcd : Int.gcd A B = 1) :
    ∃ r, inv_ref A B = some r ∧ 0 ≤ r ∧ r < B ∧ A * r ≡ 1 [ZMOD B] := by
  obtain ⟨a, rfl⟩ := Int.eq_ofNat_of_zero_le hA
  obtain ⟨b, rfl⟩ := Int.eq_ofNat_of_zero_le (le_of_lt (lt_trans zero_lt_one hB))
  have hb1 : 1 < b := by exact_mod_cast hB
  have hgcdn : Nat.gcd a b = 1 := by
    rw [Int.gcd_natCast_natCast] at hgcd
    exact hgcd
  have ha1 : 1 ≤ a := by
    rcases Nat.eq_zero_or_pos a with h0 | h1
    · subst h0
      rw [Nat.gcd_zero_left] at hgcdn
      omega
    · exact h1
  obtain ⟨r, hloop, h0, hlt, hcong⟩ := invLoop_spec ((a : ℕ) : ℤ) ((b : ℕ) : ℤ) hB b a
    (((b : ℤ)).natAbs + 1) 0 1
    (by simp) ha1 hgcdn (by simp)
    (by simp [Int.ModEq, Int.emod_self]) (by simp) (Or.inl ⟨le_refl 0, zero_le_one⟩)
    (by intro h; omega)
  refine ⟨r, ?_, h0, hlt, by rw [Int.mul_comm]; exact hcong⟩
  rw [inv_ref, if_neg (by exact_mod_cast Nat.ne_of_gt hb1)]
  exact hloop

/-- C5 counterexample: as stated (every `a`, every modulus `m > 0`), the claim is
false.  At `a = 2`, `m = 1` the code returns 1, which is not in `[0, 1)`; and at a
negative `a = -4`, `m = 3` (coprime) the loop never runs and returns 1, which is
not an inverse of `-4`. -/
theorem inv_unique_inverse_cex :
    (¬ ∀ a m : ℤ, 0 < m → Int.gcd a m = 1 →
        ∃ r, inv a m = some r ∧ 0 ≤ r ∧ r < m ∧ a * r ≡ 1 [ZMOD m]) ∧
    inv (-4) 3 = some 1 ∧ ¬ ((-4 : ℤ) * 1 ≡ 1 [ZMOD 3]) := by
  refine ⟨fun h => ?_, by decide, by decide⟩
  obtain ⟨r, hr, h0, hlt, -⟩ := h 2 1 (by norm_num) (by decide)
  have hval : inv 2 1 = some 1 := by decide
  rw [hval] at hr
  have : (1 : ℤ) = r := Option.some_injective _ hr
  omega

/-- C5 (amended): for every `a ≥ 0` and modulus `m > 1` with `a` and `m` coprime,
`inv a m` (that is, `inv_ref`) returns the unique `x` in `[0, m)` with
`a * x ≡ 1 (mod m)`.  (The restrictions `a ≥ 0` and `m > 1` are forced by the
counterexample: at `m = 1` the early return 1 is outside `[0, 1)`, and for negative
`a` the loop does not run and the result is wrong.) -/
theorem inv_unique_inverse (a m : ℤ) (ha : 0 ≤ a) (hm : 1 < m) (hcop : Int.gcd a m = 1) :
    ∃ r, inv a m = some r ∧ 0 ≤ r ∧ r < m ∧ a * r ≡ 1 [ZMOD m] ∧
      ∀ y, 0 ≤ y → y < m → a * y ≡ 1 [ZMOD m] → y = r := by
  obtain ⟨r, hr, h0, hlt, hcong⟩ := inv_ref_spec a m ha hm hcop
  refine ⟨r, hr, h0, hlt, hcong, ?_⟩
  intro y hy0 hym hy
  have hay : a * y ≡ a * r [ZMOD m] := hy.trans hcong.symm
  have hcop' : Int.gcd m a = 1 := by rw [Int.gcd_comm]; exact hcop
  have hyr : y ≡ r [ZMOD m / Int.gcd m a] :=
    Int.ModEq.cancel_left_div_gcd (by omega) hay
  rw [hcop'] at hyr
  simp only [Nat.cast_one, Int.ediv_one] at hyr
  have h1 : y % m = r % m := hyr
  rwa [Int.emod_eq_of_lt hy0 hym, Int.emod_eq_of_lt h0 hlt] at h1

/-- Witness for C5 (amended): the inverse of 3 modulo 7. -/
theorem inv_unique_inverse_witness :
    ∃ r, inv 3 7 = some r ∧ 0 ≤ r ∧ r < 7 ∧ (3 : ℤ) * r ≡ 1 [ZMOD 7] ∧
      ∀ y, 0 ≤ y → y < 7 → (3 : ℤ) * y ≡ 1 [ZMOD 7] → y = r :=
  inv_unique_inverse 3 7 (by decide) (by decide) (by decide)

/-- The `BigInt` fold computing the CRT modulus is the exact list product. -/
theorem foldl_mul_natCast (ps : List ℕ) : ∀ c : ℤ,
    ps.foldl (fun (acc : ℤ) (p : ℕ) => (p : ℤ) * acc) c = (ps.prod : ℤ) * c := by
  induction ps with
  | nil => intro c; simp
  | cons p ps ih =>
    intro c
    rw [List.foldl_cons, ih, List.prod_cons]
    push_cast
    ring

/-- `product` agrees with `List.prod`. -/
theorem product_eq_prod (xs : List ℕ) : product xs = xs.prod := by
  have h : ∀ c, xs.foldl (fun acc x => acc * x) c = c * xs.prod := by
    induction xs with
    | nil => intro c; simp
    | cons x xs ih => intro c; rw [List.foldl_cons, ih, List.prod_cons]; ring
  simpa [product] using h 1

/-- Zipping a list with its image under a map. -/
theorem zip_map_self (ps : List ℕ) (f : ℕ → ℕ) :
    ps.zip (ps.map f) = ps.map (fun p => (p, f p)) := by
  induction ps with
  | nil => rfl
  | cons p ps ih => simp [ih]

/-- The accumulation loop of `crt_inv`.  With `M > 0`, every listed prime exceeding
1, dividing `M`, and coprime to its cofactor, and the pairwise cofactor-divisibility
relation, the loop returns a value in `[0, M)` congruent to `ret + a` modulo each
listed `p`, and congruent to `ret` modulo any divisor of `M` dividing all the
cofactors. -/
theorem crtInvLoop_spec (M : ℤ) (hM : 0 < M) :
    ∀ (pairs : List (ℕ × ℕ)) (ret : ℤ), 0 ≤ ret → ret < M →
    (∀ pa ∈ pairs, 1 < pa.1 ∧ ((pa.1 : ℤ)) ∣ M ∧ Int.gcd (Int.tdiv M pa.1) pa.1 = 1) →
    List.Pairwise (fun u v => ((u.1 : ℤ)) ∣ Int.tdiv M v.1 ∧ ((v.1 : ℤ)) ∣ Int.tdiv M u.1)
      pairs →
    ∃ r, crtInvLoop M pairs ret = some r ∧ 0 ≤ r ∧ r < M ∧
      (∀ pa ∈ pairs, r ≡ ret + pa.2 [ZMOD (pa.1 : ℤ)]) ∧
      (∀ m : ℤ, m ∣ M → (∀ pa ∈ pairs, m ∣ Int.tdiv M pa.1) → r ≡ ret [ZMOD m]) := by
  intro pairs
  induction pairs with
  | nil =>
    intro ret h0 hlt _ _
    exact ⟨ret, rfl, h0, hlt, by simp, fun m _ _ => Int.ModEq.refl ret⟩
  | cons pa rest ih =>
    obtain ⟨p, av⟩ := pa
    intro ret h0 hlt hall hpw
    obtain ⟨hp1n, hpdvd, hpgcd⟩ := hall (p, av) (List.mem_cons_self _ _)
    have hall' : ∀ pb ∈ rest, 1 < pb.1 ∧ ((pb.1 : ℤ)) ∣ M ∧
        Int.gcd (Int.tdiv M pb.1) pb.1 = 1 :=
      fun pb hb => hall pb (List.mem_cons_of_mem _ hb)
    have hpw' : List.Pairwise _ rest := hpw.of_cons
    have hhead : ∀ pb ∈ rest, ((p : ℤ)) ∣ Int.tdiv M pb.1 ∧ ((pb.1 : ℤ)) ∣ Int.tdiv M p :=
      fun pb hb => (List.pairwise_cons.mp hpw).1 pb hb
    have hq0 : 0 ≤ Int.tdiv M p := Int.tdiv_nonneg (by omega) (Int.natCast_nonneg p)
    have hp1 : (1 : ℤ) < (p : ℤ) := by exact_mod_cast hp1n
    obtain ⟨i, hinv, hi0, hilt, hicong⟩ := inv_ref_spec (Int.tdiv M p) p hq0 hp1 hpgcd
    have hstep : crtInvLoop M ((p, av) :: rest) ret =
        crtInvLoop M rest (Int.tmod (ret + (av : ℤ) * i * Int.tdiv M p) M) := by
      simp only [crtInvLoop, hinv]
    have ht0 : 0 ≤ (av : ℤ) * i * Int.tdiv M p :=
      mul_nonneg (mul_nonneg (Int.natCast_nonneg av) hi0) hq0
    have htm : Int.tmod (ret + (av : ℤ) * i * Int.tdiv M p) M =
        (ret + (av : ℤ) * i * Int.tdiv M p) % M :=
      Int.tmod_eq_emod (by omega) (by omega)
    have hret0 : 0 ≤ (ret + (av : ℤ) * i * Int.tdiv M p) % M :=
      Int.emod_nonneg _ (by omega)
    have hretlt : (ret + (av : ℤ) * i * Int.tdiv M p) % M < M :=
      Int.emod_lt_of_pos _ hM
    obtain ⟨r, hr, hr0, hrlt, hcongs, hpres⟩ :=
      ih ((ret + (av : ℤ) * i * Int.tdiv M p) % M) hret0 hretlt hall' hpw'
    have hcongM : ∀ m : ℤ, m ∣ M →
        ((ret + (av : ℤ) * i * Int.tdiv M p) % M) ≡ ret + (av : ℤ) * i * Int.tdiv M p
          [ZMOD m] := by
      intro m hm
      show _ % m = _ % m
      rw [Int.emod_emod_of_dvd _ hm]
    refine ⟨r, by rw [hstep, htm]; exact hr, hr0, hrlt, ?_, ?_⟩
    · intro pb hb
      rcases List.mem_cons.mp hb with hhd | htl
      · subst hhd
        have hrret : r ≡ (ret + (av : ℤ) * i * Int.tdiv M p) % M [ZMOD (p : ℤ)] := by
          apply hpres (p : ℤ) hpdvd
          intro pb hbrest
          exact (hhead pb hbrest).1
        have h2 : r ≡ ret + (av : ℤ) * i * Int.tdiv M p [ZMOD (p : ℤ)] :=
          hrret.trans (hcongM (p : ℤ) hpdvd)
        have h3 : (av : ℤ) * i * Int.tdiv M p ≡ (av : ℤ) * 1 [ZMOD (p : ℤ)] := by
          have : (av : ℤ) * i * Int.tdiv M p = (av : ℤ) * (Int.tdiv M p * i) := by ring
          rw [this]
          exact Int.ModEq.mul_left _ hicong
        have h4 : ret + (av : ℤ) * i * Int.tdiv M p ≡ ret + (av : ℤ) [ZMOD (p : ℤ)] := by
          have := Int.ModEq.add_left ret h3
          simpa using this
        exact h2.trans h4
      · have hcb := hcongs pb htl
        have hdvdq : ((pb.1 : ℤ)) ∣ Int.tdiv M p := (hhead pb htl).2
        have hbdvdM : ((pb.1 : ℤ)) ∣ M := (hall' pb htl).2.1
        have h2 : (ret + (av : ℤ) * i * Int.tdiv M p) % M ≡ ret [ZMOD (pb.1 : ℤ)] := by
          refine (hcongM _ hbdvdM).trans ?_
          have hz : ((pb.1 : ℤ)) ∣ (av : ℤ) * i * Int.tdiv M p :=
            Dvd.dvd.mul_left hdvdq _
          calc ret + (av : ℤ) * i * Int.tdiv M p ≡ ret + 0 [ZMOD (pb.1 : ℤ)] :=
                Int.ModEq.add_left ret ((Int.modEq_zero_iff_dvd.mpr hz))
          _ = ret := by ring
        have := hcb.trans (Int.ModEq.add_right (pb.2 : ℤ) h2)
        simpa using this
    · intro m hm hmall
      have h2 : r ≡ (ret + (av : ℤ) * i * Int.tdiv M p) % M [ZMOD m] := by
        apply hpres m hm
        intro pb hbrest
        exact hmall pb (List.mem_cons_of_mem _ hbrest)
      have hmq : m ∣ Int.tdiv M p := hmall (p, av) (List.mem_cons_self _ _)
      have h3 : (ret + (av : ℤ) * i * Int.tdiv M p) % M ≡ ret [ZMOD m] := by
        refine (hcongM m hm).trans ?_
        have hz : m ∣ (av : ℤ) * i * Int.tdiv M p := Dvd.dvd.mul_left hmq _
        calc ret + (av : ℤ) * i * Int.tdiv M p ≡ ret + 0 [ZMOD m] :=
              Int.ModEq.add_left ret ((Int.modEq_zero_iff_dvd.mpr hz))
        _ = ret := by ring
      exact h2.trans h3

/-- Congruence modulo every member of a list of distinct primes implies congruence
modulo the product. -/
theorem modEq_prod_of_forall : ∀ (l : List ℕ) (r x : ℕ),
    (∀ p ∈ l, Nat.Prime p) → l.Nodup → (∀ p ∈ l, r ≡ x [MOD p]) →
    r ≡ x [MOD l.prod] := by
  intro l
  induction l with
  | nil => intro r x _ _ _; exact Nat.modEq_one
  | cons p t ih =>
    intro r x hprime hnodup hcong
    have hp : Nat.Prime p := hprime p (List.mem_cons_self p t)
    have hco : Nat.Coprime p t.prod := by
      apply Nat.coprime_list_prod_right_iff.mpr
      intro n hn
      exact (Nat.coprime_primes hp (hprime n (List.mem_cons_of_mem p hn))).mpr
        (fun he => (List.nodup_cons.mp hnodup).1 (he ▸ hn))
    rw [List.prod_cons]
    exact (Nat.modEq_and_modEq_iff_modEq_mul hco).mp
      ⟨hcong p (List.mem_cons_self p t),
       ih r x (fun q hq => hprime q (List.mem_cons_of_mem p hq))
         (List.nodup_cons.mp hnodup).2
         (fun q hq => hcong q (List.mem_cons_of_mem p hq))⟩

/-- C1: for every sequence `ps` of distinct primes drawn from the fixed prime table
and every `u128` value `x` below `product ps`, decoding the residue vector recovers
`x` exactly: `crt_inv ps (crt ps x) = some x` (in particular the decode succeeds and
its result is canonical in `[0, product ps)`). -/
theorem crt_roundtrip (ps : List ℕ) (x : ℕ)
    (hmem : ∀ p ∈ ps, p ∈ PRIMES) (hnodup : ps.Nodup)
    (hx128 : x < 2 ^ 128) (hx : x < product ps) :
    crt_inv ps (crt ps x) = some x := by
  have hprime : ∀ p ∈ ps, Nat.Prime p := fun p hp => PRIMES_prime p (hmem p hp)
  have hprod : x < ps.prod := by rwa [product_eq_prod] at hx
  have hMpos : (0 : ℤ) < ((ps.prod : ℕ) : ℤ) := by exact_mod_cast (by omega : 0 < ps.prod)
  have htdiv : ∀ p ∈ ps, Int.tdiv ((ps.prod : ℕ) : ℤ) (p : ℤ) =
      (((ps.erase p).prod : ℕ) : ℤ) := by
    intro p hp
    rw [tdiv_natCast]
    congr 1
    have herase : p * (ps.erase p).prod = ps.prod := List.prod_erase hp
    have hppos : 0 < p := (hprime p hp).pos
    rw [← herase, Nat.mul_div_cancel_left _ hppos]
  have hcopr : ∀ p ∈ ps, Int.gcd (Int.tdiv ((ps.prod : ℕ) : ℤ) (p : ℤ)) (p : ℤ) = 1 := by
    intro p hp
    rw [htdiv p hp, Int.gcd_natCast_natCast]
    apply Nat.coprime_list_prod_left_iff.mpr
    intro n hn
    have hn' : n ≠ p ∧ n ∈ ps := (List.Nodup.mem_erase_iff hnodup).mp hn
    exact (Nat.coprime_primes (hprime n hn'.2) (hprime p hp)).mpr hn'.1
  have hpairs : ps.zip (crt ps x) = ps.map (fun p => (p, x % p)) := by
    unfold crt
    exact zip_map_self ps _
  have hall : ∀ pa ∈ ps.map (fun p => (p, x % p)), 1 < pa.1 ∧
      ((pa.1 : ℤ)) ∣ ((ps.prod : ℕ) : ℤ) ∧
      Int.gcd (Int.tdiv ((ps.prod : ℕ) : ℤ) pa.1) pa.1 = 1 := by
    intro pa hpa
    obtain ⟨p, hp, rfl⟩ := List.mem_map.mp hpa
    refine ⟨(hprime p hp).one_lt, ?_, hcopr p hp⟩
    exact_mod_cast Int.natCast_dvd_natCast.mpr (List.dvd_prod hp)
  have hpw : List.Pairwise
      (fun u v : ℕ × ℕ => ((u.1 : ℤ)) ∣ Int.tdiv ((ps.prod : ℕ) : ℤ) v.1 ∧
        ((v.1 : ℤ)) ∣ Int.tdiv ((ps.prod : ℕ) : ℤ) u.1)
      (ps.map (fun p => (p, x % p))) := by
    rw [List.pairwise_map]
    apply List.Pairwise.imp_of_mem ?_ hnodup
    intro a b ha hb hne
    constructor
    · rw [htdiv b hb]
      exact_mod_cast Int.natCast_dvd_natCast.mpr
        (List.dvd_prod ((List.Nodup.mem_erase_iff hnodup).mpr ⟨hne, ha⟩))
    · rw [htdiv a ha]
      exact_mod_cast Int.natCast_dvd_natCast.mpr
        (List.dvd_prod ((List.Nodup.mem_erase_iff hnodup).mpr ⟨fun h => hne h.symm, hb⟩))
  obtain ⟨r, hloop, hr0, hrlt, hcongs, -⟩ :=
    crtInvLoop_spec ((ps.prod : ℕ) : ℤ) hMpos (ps.map (fun p => (p, x % p))) 0
      (le_refl 0) hMpos hall hpw
  have hrN : ∀ p ∈ ps, r.toNat ≡ x [MOD p] := by
    intro p hp
    have hc := hcongs (p, x % p) (List.mem_map.mpr ⟨p, hp, rfl⟩)
    have hc2 : r ≡ (x : ℤ) % (p : ℤ) [ZMOD (p : ℤ)] := by simpa using hc
    have hc3 : r % (p : ℤ) = (x : ℤ) % (p : ℤ) := by
      unfold Int.ModEq at hc2
      rw [hc2]
      exact Int.emod_emod_of_dvd _ dvd_rfl
    show r.toNat % p = x % p
    have htn : ((r.toNat : ℤ)) = r := Int.toNat_of_nonneg hr0
    have : ((r.toNat % p : ℕ) : ℤ) = ((x % p : ℕ) : ℤ) := by
      push_cast
      rw [htn, hc3]
    exact_mod_cast this
  have hmain : r.toNat ≡ x [MOD ps.prod] := modEq_prod_of_forall ps r.toNat x hprime hnodup hrN
  have hrNlt : r.toNat < ps.prod := by
    have : r < ((ps.prod : ℕ) : ℤ) := hrlt
    omega
  have hrEq : r.toNat = x := by
    have h1 : r.toNat % ps.prod = x % ps.prod := hmain
    rwa [Nat.mod_eq_of_lt hrNlt, Nat.mod_eq_of_lt hprod] at h1
  have hr128 : r < 2 ^ 128 := by
    have : (x : ℤ) < 2 ^ 128 := by exact_mod_cast hx128
    omega
  show crt_inv ps (crt ps x) = some x
  unfold crt_inv
  simp only [foldl_mul_natCast, mul_one, hpairs, hloop]
  rw [if_pos ⟨hr0, hr128⟩, hrEq]

/-- Witness for C1: primes `[2, 3, 5]` and `x = 7` (residues `[1, 1, 2]`). -/
theorem crt_roundtrip_witness : crt_inv [2, 3, 5] (crt [2, 3, 5] 7) = some 7 :=
  crt_roundtrip [2, 3, 5] 7 (by decide) (by decide) (by decide) (by decide)

end Swanky
